import Mathlib

/-!
# summergo: link-preview summaries for Reddit and the iframe permission filter

A shallow embedding of `oembed.go` and `reddit.go`.

Modelling conventions.

* A Go `string` is modelled as a `List Char` (abbreviated `Str`): the strings
  that are valid UTF-8.  Functions of the Go standard library that work on
  bytes (`net/url` escaping) see the UTF-8 bytes of every character.
* A Go pointer that may be `nil` is an `Option`; a slice is a `List`
  (`nil` and the empty slice are both `[]`).
* Go `int` fields are `Int`; they are only copied, never computed with.
* A Go `error` is a value of `GoError`; the result `(redditPost, error)` is an
  `Except`, a result `(*Summary, error)` is a pair of options.
* Standard-library functions (`strings`, `regexp`, `net/url`, `html`,
  `encoding/json`) are modelled after the Go sources; the two big Unicode/HTML
  tables (lower-case mapping, named character references), the error values
  of `encoding/json` and the network are parameters.
-/

/-- A Go string: the sequence of its characters. -/
abbrev Str := List Char

/-! ## Package `strings` -/

namespace strings

/-- Go `strings.HasPrefix(s, prefix)`. -/
def HasPrefix (s pre : Str) : Bool := pre.isPrefixOf s

/-- Go `strings.HasSuffix(s, suffix)`. -/
def HasSuffix (s suf : Str) : Bool := suf.isSuffixOf s

/-- Go `strings.Contains(s, substr)`: `substr` occurs at some position of `s`. -/
def Contains : Str → Str → Bool
  | [], substr => substr.isEmpty
  | c :: cs, substr => substr.isPrefixOf (c :: cs) || Contains cs substr

/-- Worker of `Split` for a one-character separator: `cur` is the piece being
read, in reverse. -/
def splitAux (sep : Char) : Str → Str → List Str
  | [], cur => [cur.reverse]
  | c :: cs, cur =>
    if c = sep then cur.reverse :: splitAux sep cs [] else splitAux sep cs (c :: cur)

/-- Go `strings.Split(s, sep)` for a separator of one character: the pieces
between the occurrences of `sep`, one more than there are occurrences. -/
def Split (s : Str) (sep : Char) : List Str := splitAux sep s []

end strings

/-! ## Package `unicode` -/

namespace unicode

/-- Go `unicode.IsSpace`: the Latin-1 space characters and the characters with
the Unicode property White_Space. -/
def IsSpace (c : Char) : Bool :=
  let n := c.toNat
  n = 0x09 || n = 0x0A || n = 0x0B || n = 0x0C || n = 0x0D || n = 0x20 ||
  n = 0x85 || n = 0xA0 || n = 0x1680 || (0x2000 ≤ n && n ≤ 0x200A) ||
  n = 0x2028 || n = 0x2029 || n = 0x202F || n = 0x205F || n = 0x3000

/-- Go `unicode.ToLower`: ASCII letters by arithmetic, every other character
through the case table `tbl` of the Unicode database. -/
def ToLower (tbl : Char → Char) (c : Char) : Char :=
  if c.toNat < 0x80 then
    (if 0x41 ≤ c.toNat ∧ c.toNat ≤ 0x5A then Char.ofNat (c.toNat + 32) else c)
  else tbl c

end unicode

namespace strings

/-- Go `strings.TrimSpace`: drop leading and trailing white space. -/
def TrimSpace (s : Str) : Str :=
  ((s.dropWhile unicode.IsSpace).reverse.dropWhile unicode.IsSpace).reverse

/-- Go `strings.ToLower`: every character mapped by `unicode.ToLower`. -/
def ToLower (tbl : Char → Char) (s : Str) : Str := s.map (unicode.ToLower tbl)

end strings

/-! ## Package `regexp`, as far as the pattern of `oembed.go` needs it -/

namespace regexp

/-- One instruction of a pattern. -/
inductive Node where
  /-- One character of a class (a literal is a class of one). -/
  | char (p : Char → Bool)
  /-- Greedy repetition `x*` of a class. -/
  | star (p : Char → Bool)
  /-- Non-greedy repetition `x+?` of a class. -/
  | plusLazy (p : Char → Bool)
  /-- Opening bracket of the capturing group. -/
  | capStart
  /-- Closing bracket of the capturing group. -/
  | capEnd

/-- State of a match attempt: whether the group is open, and its text so far. -/
structure Slot where
  recording : Bool
  text : Str

/-- Consume the character `c`. -/
def Slot.push (sl : Slot) (c : Char) : Slot :=
  if sl.recording then { sl with text := sl.text ++ [c] } else sl

/-- Greedy `x*` followed by the rest of the pattern `k`: take one more
character when that leads to a match, otherwise go on with `k` here. -/
def starGreedy (p : Char → Bool) (k : Str → Slot → Option (Str × Str)) :
    Str → Slot → Option (Str × Str)
  | [], sl => k [] sl
  | c :: cs, sl =>
    if p c then
      match starGreedy p k cs (sl.push c) with
      | some r => some r
      | none => k (c :: cs) sl
    else k (c :: cs) sl

/-- Non-greedy `x*?` followed by the rest of the pattern `k`: go on with `k`
here when that leads to a match, otherwise take one more character. -/
def starLazy (p : Char → Bool) (k : Str → Slot → Option (Str × Str)) :
    Str → Slot → Option (Str × Str)
  | [], sl => k [] sl
  | c :: cs, sl =>
    match k (c :: cs) sl with
    | some r => some r
    | none => if p c then starLazy p k cs (sl.push c) else none

/-- Leftmost-first (backtracking) match of a pattern at the start of the
input: the text of the group and the input left after the match. -/
def run : List Node → Str → Slot → Option (Str × Str)
  | [], input, sl => some (sl.text, input)
  | .char p :: prog, input, sl =>
    match input with
    | [] => none
    | c :: cs => if p c then run prog cs (sl.push c) else none
  | .star p :: prog, input, sl => starGreedy p (fun i s => run prog i s) input sl
  | .plusLazy p :: prog, input, sl =>
    match input with
    | [] => none
    | c :: cs => if p c then starLazy p (fun i s => run prog i s) cs (sl.push c) else none
  | .capStart :: prog, input, _ => run prog input ⟨true, []⟩
  | .capEnd :: prog, input, sl => run prog input { sl with recording := false }

/-- Successive non-overlapping matches, leftmost first: the group text of each.
`fuel` bounds the number of positions visited. -/
def findAllFuel (prog : List Node) : Nat → Str → List Str
  | 0, _ => []
  | _ + 1, [] => []
  | fuel + 1, c :: cs =>
    match run prog (c :: cs) ⟨false, []⟩ with
    | some (cap, rest) => cap :: findAllFuel prog fuel rest
    | none => findAllFuel prog fuel cs

/-- Go `re.FindAllStringSubmatch(s, -1)`, reduced to the text of group 1 of
every match (the patterns used here match no empty string). -/
def FindAllStringSubmatch (prog : List Node) (s : Str) : List Str :=
  findAllFuel prog (s.length + 1) s

/-- A continuation that returns a rest no longer than its input. -/
def Shrinks (k : Str → Slot → Option (Str × Str)) : Prop :=
  ∀ i sl r, k i sl = some r → r.2.length ≤ i.length

/-- Perl class `\s` of Go regexps: `[\t\n\f\r ]`. -/
def perlSpace (c : Char) : Bool :=
  c = '\t' || c = '\n' || c = Char.ofNat 0x0C || c = '\r' || c = ' '

end regexp

/-! ## `oembed.go` -/

/-- Class `["']` of the pattern. -/
def isQuote (c : Char) : Bool := c = '"' || c = '\''

/-- The pattern `allow\s*=\s*["']([^"']+?)["']` of `getRequiredPermissionsFromIframe`. -/
def allowPattern : List regexp.Node :=
  [ .char (· = 'a'), .char (· = 'l'), .char (· = 'l'), .char (· = 'o'), .char (· = 'w'),
    .star regexp.perlSpace, .char (· = '='), .star regexp.perlSpace,
    .char isQuote, .capStart, .plusLazy (fun c => !isQuote c), .capEnd, .char isQuote ]

/-- The inner loop of `getRequiredPermissionsFromIframe`: the non-empty trimmed
pieces of one attribute value. -/
def trimmedAttributes (attributes : List Str) : List Str :=
  (attributes.map strings.TrimSpace).filter (fun trimmedAttr => trimmedAttr ≠ [])

/-- Source `getRequiredPermissionsFromIframe`. -/
def getRequiredPermissionsFromIframe (iframe : Str) : List Str :=
  (regexp.FindAllStringSubmatch allowPattern iframe).flatMap
    (fun m => trimmedAttributes (strings.Split m ';'))

/-- The list `safePermissions` of `filterSafeIframePermissions`. -/
def safePermissions : List Str :=
  ["autoplay".toList, "clipboard-write".toList, "picture-in-picture".toList,
   "web-share".toList, "fullscreen".toList]

/-- Inner loop of `filterSafeIframePermissions`: one pass over the safe list
for the requested permission `rp`, appending `rp` at every equal entry. -/
def appendMatches (rp : Str) : List Str → List Str → List Str
  | [], allowed => allowed
  | sp :: sps, allowed =>
    if rp = sp then appendMatches rp sps (allowed ++ [rp]) else appendMatches rp sps allowed

/-- Outer loop of `filterSafeIframePermissions`. -/
def filterLoop : List Str → List Str → List Str
  | [], allowed => allowed
  | rp :: rps, allowed => filterLoop rps (appendMatches rp safePermissions allowed)

/-- Source `filterSafeIframePermissions`. -/
def filterSafeIframePermissions (iframe : Str) : List Str :=
  filterLoop (getRequiredPermissionsFromIframe iframe) []

/-! ## Package `unicode/utf8` -/

namespace utf8

/-- The UTF-8 bytes of one character (Go `utf8.EncodeRune`). -/
def EncodeRune (c : Char) : List Nat :=
  let n := c.toNat
  if n < 0x80 then [n]
  else if n < 0x800 then [0xC0 + n / 64, 0x80 + n % 64]
  else if n < 0x10000 then [0xE0 + n / 4096, 0x80 + n / 64 % 64, 0x80 + n % 64]
  else [0xF0 + n / 262144, 0x80 + n / 4096 % 64, 0x80 + n / 64 % 64, 0x80 + n % 64]

/-- The bytes of a Go string. -/
def bytes (s : Str) : List Nat := s.flatMap EncodeRune

end utf8

/-! ## Package `net/url`: the fields of `URL` and its serialization -/

namespace url

/-- Go `url.encoding`: the part of a URL that is being escaped. -/
inductive encoding where
  | encodePath
  | encodePathSegment
  | encodeHost
  | encodeZone
  | encodeUserPassword
  | encodeQueryComponent
  | encodeFragment
  deriving DecidableEq, Repr

open encoding

/-- The byte `c` is one of the characters of `set`. -/
def byteIn (c : Nat) (set : String) : Bool := set.toList.any (fun x => x.toNat = c)

/-- Go `url.shouldEscape(c, mode)`, `c` a byte. -/
def shouldEscape (c : Nat) (mode : encoding) : Bool :=
  if (97 ≤ c ∧ c ≤ 122) ∨ (65 ≤ c ∧ c ≤ 90) ∨ (48 ≤ c ∧ c ≤ 57) then false
  else if (mode = encodeHost ∨ mode = encodeZone) ∧ byteIn c "!$&'()*+,;=:[]<>\"" then false
  else if byteIn c "-_.~" then false
  else if byteIn c "$&+,/:;=?@" ∧ mode = encodePath then c = 63
  else if byteIn c "$&+,/:;=?@" ∧ mode = encodePathSegment then
    c = 47 || c = 59 || c = 44 || c = 63
  else if byteIn c "$&+,/:;=?@" ∧ mode = encodeUserPassword then
    c = 64 || c = 47 || c = 63 || c = 58
  else if byteIn c "$&+,/:;=?@" ∧ mode = encodeQueryComponent then true
  else if byteIn c "$&+,/:;=?@" ∧ mode = encodeFragment then false
  else if mode = encodeFragment ∧ byteIn c "!()*" then false
  else true

/-- Go `upperhex[n]`. -/
def upperhex (n : Nat) : Char := "0123456789ABCDEF".toList.getD n '0'

/-- Go `url.escape(s, mode)`: every byte that `shouldEscape` names becomes
`%XX` (a space becomes `+` in a query component). -/
def escape (s : Str) (mode : encoding) : Str :=
  (utf8.bytes s).flatMap fun c =>
    if shouldEscape c mode then
      (if c = 32 ∧ mode = encodeQueryComponent then ['+']
       else ['%', upperhex (c / 16), upperhex (c % 16)])
    else [Char.ofNat c]

/-- Go `url.ishex`. -/
def ishex (c : Char) : Bool :=
  (48 ≤ c.toNat && c.toNat ≤ 57) || (97 ≤ c.toNat && c.toNat ≤ 102) ||
  (65 ≤ c.toNat && c.toNat ≤ 70)

/-- Go `url.unhex`. -/
def unhex (c : Char) : Nat :=
  if 48 ≤ c.toNat ∧ c.toNat ≤ 57 then c.toNat - 48
  else if 97 ≤ c.toNat ∧ c.toNat ≤ 102 then c.toNat - 97 + 10
  else if 65 ≤ c.toNat ∧ c.toNat ≤ 70 then c.toNat - 65 + 10
  else 0

/-- Go `url.unescape(s, mode)`: the bytes of `s` with every `%XX` decoded, or
`none` where the Go function returns an error. -/
def unescape : Str → encoding → Option (List Nat)
  | [], _ => some []
  | c :: rest, mode =>
    if c = '%' then
      match rest with
      | h1 :: h2 :: rest2 =>
        if ishex h1 && ishex h2 then
          let v := unhex h1 * 16 + unhex h2
          if mode = encodeHost ∧ unhex h1 < 8 ∧ [c, h1, h2] ≠ "%25".toList then none
          else if mode = encodeZone ∧ [c, h1, h2] ≠ "%25".toList ∧ v ≠ 32 ∧
              shouldEscape v encodeHost then none
          else (unescape rest2 mode).map (fun t => v :: t)
        else none
      | _ => none
    else if c = '+' then
      (unescape rest mode).map (fun t => (if mode = encodeQueryComponent then 32 else 43) :: t)
    else if (mode = encodeHost ∨ mode = encodeZone) ∧ c.toNat < 0x80 ∧
        shouldEscape c.toNat encodeHost then none
    else (unescape rest mode).map (fun t => utf8.EncodeRune c ++ t)

/-- Go `url.validEncoded(s, mode)`. -/
def validEncoded (s : Str) (mode : encoding) : Bool :=
  (utf8.bytes s).all fun c =>
    byteIn c "!$&'()*+,;=:@" || byteIn c "[]" || c = 37 || !shouldEscape c mode

/-- Go `url.Userinfo`. -/
structure Userinfo where
  username : Str
  password : Str
  passwordSet : Bool
  deriving DecidableEq, Repr

/-- Go `(*Userinfo).String` on a non-nil receiver. -/
def Userinfo.String (u : Userinfo) : Str :=
  let s := escape u.username encodeUserPassword
  if u.passwordSet then s ++ ":".toList ++ escape u.password encodeUserPassword else s

/-- Go `url.URL`. -/
structure URL where
  Scheme : Str
  Opaque : Str
  User : Option Userinfo
  Host : Str
  Path : Str
  RawPath : Str
  OmitHost : Bool
  ForceQuery : Bool
  RawQuery : Str
  Fragment : Str
  RawFragment : Str
  deriving DecidableEq, Repr

/-- Go `(*URL).EscapedPath`: `RawPath` when it is a valid encoding of `Path`,
otherwise the default escaping of `Path`. -/
def URL.EscapedPath (u : URL) : Str :=
  if u.RawPath ≠ [] ∧ validEncoded u.RawPath encodePath = true ∧
      unescape u.RawPath encodePath = some (utf8.bytes u.Path) then u.RawPath
  else if u.Path = "*".toList then "*".toList
  else escape u.Path encodePath

/-- Go `(*URL).EscapedFragment`. -/
def URL.EscapedFragment (u : URL) : Str :=
  if u.RawFragment ≠ [] ∧ validEncoded u.RawFragment encodeFragment = true ∧
      unescape u.RawFragment encodeFragment = some (utf8.bytes u.Fragment) then u.RawFragment
  else escape u.Fragment encodeFragment

/-- The part of `(*URL).String` written before the path when `Opaque` is
empty: `//`, the user information and the host. -/
def URL.authority (u : URL) : Str :=
  if u.Scheme ≠ [] ∨ u.Host ≠ [] ∨ u.User ≠ none then
    if u.OmitHost = true ∧ u.Host = [] ∧ u.User = none then []
    else
      (if u.Host ≠ [] ∨ u.Path ≠ [] ∨ u.User ≠ none then "//".toList else []) ++
      (match u.User with
        | some ui => ui.String ++ "@".toList
        | none => []) ++
      (if u.Host ≠ [] then escape u.Host encodeHost else [])
  else []

/-- The part of `(*URL).String` for scheme, authority and path. A URL without
host and user whose path starts with `//` is left aside: no URL that
`buildRedditJSONURL` accepts is of that kind, since it has a host. -/
def URL.hierPart (u : URL) : Str :=
  let buf := if u.Scheme ≠ [] then u.Scheme ++ ":".toList else []
  if u.Opaque ≠ [] then buf ++ u.Opaque
  else
    let buf := buf ++ u.authority
    let path := u.EscapedPath
    let buf := if path ≠ [] ∧ path.head? ≠ some '/' ∧ u.Host ≠ [] then buf ++ "/".toList else buf
    let buf :=
      if buf = [] ∧ (path.takeWhile (fun c => c ≠ '/')).contains ':' then buf ++ "./".toList
      else buf
    buf ++ path

/-- Go `(*URL).String`. -/
def URL.String (u : URL) : Str :=
  u.hierPart ++
  (if u.ForceQuery = true ∨ u.RawQuery ≠ [] then "?".toList ++ u.RawQuery else []) ++
  (if u.Fragment ≠ [] then "#".toList ++ u.EscapedFragment else [])

/-- Go `strings.LastIndexByte(s, c)` as a split: the text before the last `c`
and the text from it on, or `none` when `c` does not occur. -/
def cutLast (c : Char) : Str → Option (Str × Str)
  | [] => none
  | x :: xs =>
    match cutLast c xs with
    | some (before, after) => some (x :: before, after)
    | none => if x = c then some ([], x :: xs) else none

/-- Go `url.validOptionalPort`. -/
def validOptionalPort (port : Str) : Bool :=
  match port with
  | [] => true
  | c :: rest => if c ≠ ':' then false else rest.all (fun b => !(b < '0' || b > '9'))

/-- Go `url.splitHostPort`, the host part. -/
def splitHost (hostPort : Str) : Str :=
  let host :=
    match cutLast ':' hostPort with
    | some (before, after) => if validOptionalPort after then before else hostPort
    | none => hostPort
  if strings.HasPrefix host "[".toList && strings.HasSuffix host "]".toList then
    (host.drop 1).take (host.length - 2)
  else host

/-- Go `(*URL).Hostname`: the host without a valid port and without the
square brackets of an IPv6 literal. -/
def URL.Hostname (u : URL) : Str := splitHost u.Host

end url

/-! ## `reddit.go`: the endpoint resolver -/

/-- Source `isRedditHost`; `tbl` is the Unicode lower-case table. -/
def isRedditHost (tbl : Char → Char) (host : Str) : Bool :=
  let normalized := strings.ToLower tbl host
  normalized = "reddit.com".toList || strings.HasSuffix normalized ".reddit.com".toList

/-- Source `buildRedditJSONURL`; `tbl` is the Unicode lower-case table. -/
def buildRedditJSONURL (tbl : Char → Char) (parsed : url.URL) : Str × Bool :=
  if !isRedditHost tbl parsed.Hostname then ([], false)
  else if !strings.Contains parsed.Path "/comments/".toList then ([], false)
  else if strings.HasSuffix parsed.Path ".json".toList then (parsed.String, true)
  else
    let jsonURL := parsed
    let jsonURL :=
      if strings.HasSuffix jsonURL.Path "/".toList then
        { jsonURL with Path := jsonURL.Path ++ ".json".toList }
      else
        { jsonURL with Path := jsonURL.Path ++ "/.json".toList }
    (jsonURL.String, true)

/-! ## Package `html`: `UnescapeString` -/

namespace html

/-- The two maps of named character references of package `html` (`entity`:
name to one character, `entity2`: name to two characters).  Names are stored
without the leading `&`; most end in `;`.  In Go no replacement has more bytes
than its reference, which lets `UnescapeString` rewrite its buffer in place;
the model below builds the result as a new string. -/
structure EntityTables where
  entity : Str → Option Char
  entity2 : Str → Option (Char × Char)

/-- Go `html.longestEntityWithoutSemicolon`. -/
def longestEntityWithoutSemicolon : Nat := 6

/-- Go `html.replacementTable`: the Windows-1252 readings of `0x80`..`0x9F`. -/
def replacementTable : List Nat :=
  [0x20AC, 0x0081, 0x201A, 0x0192, 0x201E, 0x2026, 0x2020, 0x2021,
   0x02C6, 0x2030, 0x0160, 0x2039, 0x0152, 0x008D, 0x017D, 0x008F,
   0x0090, 0x2018, 0x2019, 0x201C, 0x201D, 0x2022, 0x2013, 0x2014,
   0x02DC, 0x2122, 0x0161, 0x203A, 0x0153, 0x009D, 0x017E, 0x0178]

/-- A Go `rune` (int32) value after an arithmetic step: wrapped to 32 bits. -/
def wrap32 (v : Int) : Int := (v + 2147483648) % 4294967296 - 2147483648

/-- The digit loop of a numeric reference: reads digits from `s`, starting
with the value `x` and the index `i`; returns the value and the index after
the loop (one past a closing `;`). -/
def scanDigits (hex : Bool) : Str → Int → Nat → Int × Nat
  | [], x, i => (x, i)
  | c :: cs, x, i =>
    let n : Int := c.toNat
    if hex = true ∧ 48 ≤ c.toNat ∧ c.toNat ≤ 57 then scanDigits hex cs (wrap32 (16 * x + n - 48)) (i + 1)
    else if hex = true ∧ 97 ≤ c.toNat ∧ c.toNat ≤ 102 then
      scanDigits hex cs (wrap32 (16 * x + n - 97 + 10)) (i + 1)
    else if hex = true ∧ 65 ≤ c.toNat ∧ c.toNat ≤ 70 then
      scanDigits hex cs (wrap32 (16 * x + n - 65 + 10)) (i + 1)
    else if hex = false ∧ 48 ≤ c.toNat ∧ c.toNat ≤ 57 then
      scanDigits hex cs (wrap32 (10 * x + n - 48)) (i + 1)
    else if c = ';' then (x, i + 1)
    else (x, i)

/-- The character written for the numeric reference with value `x`. -/
def numericChar (x : Int) : Char :=
  if 0x80 ≤ x ∧ x ≤ 0x9F then Char.ofNat (replacementTable.getD (x.toNat - 0x80) 0xFFFD)
  else if x ≤ 0 ∨ (0xD800 ≤ x ∧ x ≤ 0xDFFF) ∨ x > 0x10FFFF then Char.ofNat 0xFFFD
  else Char.ofNat x.toNat

/-- The name loop of a named reference: the index after the longest run of
ASCII letters and digits from index `i` on, one more for a closing `;`. -/
def scanName : Str → Nat → Nat
  | [], i => i
  | c :: cs, i =>
    if (97 ≤ c.toNat ∧ c.toNat ≤ 122) ∨ (65 ≤ c.toNat ∧ c.toNat ≤ 90) ∨
        (48 ≤ c.toNat ∧ c.toNat ≤ 57) then scanName cs (i + 1)
    else if c = ';' then i + 1
    else i

/-- The loop `for j := maxLen; j > 1; j--` over the prefixes of an entity
name; `j` counts down from `k + 1`. -/
def prefixLookup (tb : EntityTables) (entityName : Str) : Nat → Option (Char × Nat)
  | 0 => none
  | k + 1 =>
    if k + 1 > 1 then
      match tb.entity (entityName.take (k + 1)) with
      | some x => some (x, k + 1)
      | none => prefixLookup tb entityName k
    else none

/-- Go `html.unescapeEntity`, for an input `s` that starts with `&`: the text
written and the number of characters of `s` read. -/
def unescapeEntity (tb : EntityTables) (s : Str) : Str × Nat :=
  if (utf8.bytes s).length ≤ 1 then (s.take 1, 1)
  else if s.getD 1 ' ' = '#' then
    if (utf8.bytes s).length ≤ 3 then (s.take 1, 1)
    else
      let c := s.getD 2 ' '
      let hex : Bool := c = 'x' || c = 'X'
      let start := if hex then 3 else 2
      let (x, i) := scanDigits hex (s.drop start) 0 start
      if i ≤ 3 then (s.take 1, 1)
      else ([numericChar x], i)
  else
    let i := scanName (s.drop 1) 1
    let entityName := (s.take i).drop 1
    if entityName = [] then (s.take i, i)
    else
      match tb.entity entityName with
      | some x => ([x], i)
      | none =>
        match tb.entity2 entityName with
        | some (x0, x1) => ([x0, x1], i)
        | none =>
          let maxLen := min (entityName.length - 1) longestEntityWithoutSemicolon
          match prefixLookup tb entityName maxLen with
          | some (x, j) => ([x], j + 1)
          | none => (s.take i, i)

/-- The loop of `UnescapeString`: text up to the next `&` is copied, a
reference is replaced.  `fuel` bounds the number of rounds. -/
def unescapeFuel (tb : EntityTables) : Nat → Str → Str
  | 0, _ => []
  | _ + 1, [] => []
  | fuel + 1, c :: cs =>
    if c = '&' then
      let r := unescapeEntity tb (c :: cs)
      r.1 ++ unescapeFuel tb fuel ((c :: cs).drop r.2)
    else c :: unescapeFuel tb fuel cs

/-- Go `html.UnescapeString`. -/
def UnescapeString (tb : EntityTables) (s : Str) : Str := unescapeFuel tb (s.length + 1) s

end html

/-! ## `reddit.go`: the decode targets -/

/-- A Go `error`: made by `errors.New`, or by `fmt.Errorf` wrapping another. -/
inductive GoError where
  | errorString (msg : Str)
  | wrapError (msg : Str) (err : GoError)
  deriving DecidableEq, Repr

/-- Source type `redditVideo`. -/
structure redditVideo where
  FallbackURL : Str
  Width : Int
  Height : Int
  deriving DecidableEq, Repr

/-- Source type `redditMedia`. -/
structure redditMedia where
  RedditVideo : Option redditVideo
  deriving DecidableEq, Repr

/-- Source type `redditImageSource`. -/
structure redditImageSource where
  URL : Str
  Width : Int
  Height : Int
  deriving DecidableEq, Repr

/-- Source type `redditImage`. -/
structure redditImage where
  Source : redditImageSource
  deriving DecidableEq, Repr

/-- Source type `redditPreview`. -/
structure redditPreview where
  Images : List redditImage
  deriving DecidableEq, Repr

/-- Source type `redditPost`. -/
structure redditPost where
  Title : Str
  Selftext : Str
  SubredditNamePrefixed : Str
  Thumbnail : Str
  URLOverriddenByDest : Str
  Over18 : Bool
  PostHint : Str
  Preview : Option redditPreview
  Media : Option redditMedia
  SecureMedia : Option redditMedia
  deriving DecidableEq, Repr

/-- Source type `redditChild`. -/
structure redditChild where
  Kind : Str
  Data : redditPost
  deriving DecidableEq, Repr

/-- The anonymous struct of the field `Data` of `redditListing`. -/
structure redditListingData where
  Children : List redditChild
  deriving DecidableEq, Repr

/-- Source type `redditListing`. -/
structure redditListing where
  Kind : Str
  Data : redditListingData
  deriving DecidableEq, Repr

/-- Modelled from the spec: the type `Player` is declared in a file of the
repository that is not among the sources; the spec gives it the fields `Url`,
`Width` and `Height`, all zero or empty when there is no playable media. -/
structure Player where
  Url : Str
  Width : Int
  Height : Int
  deriving DecidableEq, Repr

/-! ## `reddit.go`: locating the post -/

/-- The error of `redditFindPost`. -/
def errPostNotFound : GoError := .errorString "reddit json: post not found".toList

/-- Inner loop of `redditFindPost` over the children of one listing: the data
of the first child of kind `t3`, if the loop returns. -/
def findInChildren : List redditChild → Option redditPost
  | [] => none
  | child :: rest => if child.Kind = "t3".toList then some child.Data else findInChildren rest

/-- Source `redditFindPost`. -/
def redditFindPost : List redditListing → Except GoError redditPost
  | [] => .error errPostNotFound
  | listing :: rest =>
    match findInChildren listing.Data.Children with
    | some post => .ok post
    | none => redditFindPost rest

/-! ## `reddit.go`: thumbnail and player -/

/-- The guard `post.Preview != nil && len(post.Preview.Images) > 0` of
`redditThumbnail`, with the element `post.Preview.Images[0]` it gives access to. -/
def firstPreviewImage (post : redditPost) : Option redditImage :=
  match post.Preview with
  | some preview => preview.Images.head?
  | none => none

/-- The second and third `if` of `redditThumbnail` and its final `return`. -/
def thumbnailAfterPreview (post : redditPost) : Str :=
  if post.URLOverriddenByDest ≠ [] ∧
      (post.PostHint = "image".toList ∨
        strings.HasPrefix post.URLOverriddenByDest "https://i.redd.it/".toList = true) then
    post.URLOverriddenByDest
  else if strings.HasPrefix post.Thumbnail "http://".toList = true ∨
      strings.HasPrefix post.Thumbnail "https://".toList = true then
    post.Thumbnail
  else []

/-- Source `redditThumbnail`; `tb` holds the entity tables of package `html`. -/
def redditThumbnail (tb : html.EntityTables) (post : redditPost) : Str :=
  match firstPreviewImage post with
  | some image =>
    let previewURL := strings.TrimSpace image.Source.URL
    if previewURL ≠ [] then html.UnescapeString tb previewURL
    else thumbnailAfterPreview post
  | none => thumbnailAfterPreview post

/-- Source `pickRedditVideo`. -/
def pickRedditVideo (post : redditPost) : Option redditVideo :=
  match post.SecureMedia with
  | some { RedditVideo := some video } => some video
  | _ =>
    match post.Media with
    | some { RedditVideo := some video } => some video
    | _ => none

/-- Source `redditPlayer`. -/
def redditPlayer (post : redditPost) : Player :=
  let player : Player := { Url := [], Width := 0, Height := 0 }
  match pickRedditVideo post with
  | some video =>
    { player with Url := video.FallbackURL, Width := video.Width, Height := video.Height }
  | none => player

/-! ## `reddit.go`: assembling the summary -/

/-- Modelled from the spec: the type `Summary` is declared in a file of the
repository that is not among the sources; the spec names its fields, and
`redditSummaryFromPost` fills exactly these. -/
structure Summary where
  Url : Str
  Title : Str
  Description : Str
  Thumbnail : Str
  SiteName : Str
  Icon : Str
  Sensitive : Bool
  Player : Player
  deriving DecidableEq, Repr

/-- Source `redditIconURL`: `fmt.Sprintf("%s://%s/favicon.ico", scheme, host)`. -/
def redditIconURL (siteUrl : url.URL) : Str :=
  let scheme := if siteUrl.Scheme = [] then "https".toList else siteUrl.Scheme
  let host := if siteUrl.Host = [] then "www.reddit.com".toList else siteUrl.Host
  scheme ++ "://".toList ++ host ++ "/favicon.ico".toList

/-- Source `redditSummaryFromPost`. -/
def redditSummaryFromPost (tb : html.EntityTables) (siteUrl : url.URL) (post : redditPost) :
    Summary :=
  let siteName :=
    if post.SubredditNamePrefixed = [] then "Reddit".toList else post.SubredditNamePrefixed
  { Url := siteUrl.String,
    Title := post.Title,
    Description := post.Selftext,
    Thumbnail := redditThumbnail tb post,
    SiteName := siteName,
    Icon := redditIconURL siteUrl,
    Sensitive := post.Over18,
    Player := redditPlayer post }

/-- A Go result `(*Summary, error)`: each of the two may be `nil`. -/
abbrev SummaryResult := Option Summary × Option GoError

/-- Source `summarizeRedditFromListings`. -/
def summarizeRedditFromListings (tb : html.EntityTables) (siteUrl : url.URL)
    (listings : List redditListing) : SummaryResult :=
  match redditFindPost listings with
  | .error err => (none, some err)
  | .ok post => (some (redditSummaryFromPost tb siteUrl post), none)

/-! ## Sample values -/

/-- A lower-case table that changes nothing: enough for hosts written in
ASCII, whose letters `unicode.ToLower` maps by arithmetic. -/
def noCaseTable : Char → Char := fun c => c

/-- A URL with the given scheme, host, path, raw path, query and fragment,
all other fields zero. -/
def mkURL (scheme host path rawPath query fragment : String) : url.URL :=
  { Scheme := scheme.toList, Opaque := [], User := none, Host := host.toList,
    Path := path.toList, RawPath := rawPath.toList, OmitHost := false, ForceQuery := false,
    RawQuery := query.toList, Fragment := fragment.toList, RawFragment := [] }

/-- The URL of `TestSummarizeRedditFromJSON`, as `url.Parse` returns it. -/
def sampleURL : url.URL :=
  mkURL "https" "www.reddit.com" "/r/test/comments/abc/example/" "" "" ""

/-- What `url.Parse` returns for `https://www.reddit.com/r/a%2Fb/comments/x?s=1#top`:
the path holds an escaped slash, so `RawPath` keeps the original spelling. -/
def encodedSlashURL : url.URL :=
  mkURL "https" "www.reddit.com" "/r/a/b/comments/x" "/r/a%2Fb/comments/x" "s=1" "top"

/-- A post with the given thumbnail, destination URL and hint, every other
field zero: no preview and no media. -/
def mkPost (thumbnail dest hint : String) : redditPost :=
  { Title := [], Selftext := [], SubredditNamePrefixed := [], Thumbnail := thumbnail.toList,
    URLOverriddenByDest := dest.toList, Over18 := false, PostHint := hint.toList,
    Preview := none, Media := none, SecureMedia := none }

/-- The post of `redditJSONSample` in `reddit_test.go`. -/
def samplePost : redditPost :=
  { Title := "Example title".toList, Selftext := "Example body".toList,
    SubredditNamePrefixed := "r/test".toList,
    Thumbnail := "https://example.com/thumb.jpg".toList,
    URLOverriddenByDest := "https://i.redd.it/example.png".toList,
    Over18 := true, PostHint := "image".toList,
    Preview := some { Images := [{ Source :=
      { URL := "https://preview.redd.it/example.png?width=640&amp;auto=webp".toList,
        Width := 640, Height := 480 } }] },
    Media := none, SecureMedia := none }

/-- An excerpt of the entity tables of package `html`: the five references of
XML, with and without the closing `;` where HTML allows that. -/
def sampleEntities : html.EntityTables :=
  { entity := fun name =>
      if name = "amp;".toList ∨ name = "amp".toList then some '&'
      else if name = "lt;".toList ∨ name = "lt".toList then some '<'
      else if name = "gt;".toList ∨ name = "gt".toList then some '>'
      else if name = "quot;".toList ∨ name = "quot".toList then some '"'
      else if name = "apos;".toList then some '\''
      else none,
    entity2 := fun _ => none }

/-- A comment child and a post child with the given title. -/
def mkChild (kind title : String) : redditChild :=
  { Kind := kind.toList, Data := { mkPost "" "" "" with Title := title.toList } }

/-- A listing with the given children. -/
def mkListing (children : List redditChild) : redditListing :=
  { Kind := "Listing".toList, Data := { Children := children } }

/-- A post without preview whose two media fields carry the given videos. -/
def mkVideoPost (secure plain : Option redditVideo) : redditPost :=
  { mkPost "" "" "" with
    SecureMedia := some { RedditVideo := secure }, Media := some { RedditVideo := plain } }

/-! ## Conditions of the claims on `redditThumbnail` -/

/-- The post has no usable preview image: the preview is absent, its image
list is empty, or the source URL of its first image is blank. -/
def noUsablePreview (post : redditPost) : Bool :=
  match post.Preview with
  | none => true
  | some preview =>
    match preview.Images with
    | [] => true
    | image :: _ => strings.TrimSpace image.Source.URL = []

/-! ## Conditions of the claims on the permission extractor -/

/-- Go `strings.Join(elems, sep)`. -/
def strings.Join : List Str → Str → Str
  | [], _ => []
  | [a], _ => a
  | a :: b :: rest, sep => a ++ sep ++ strings.Join (b :: rest) sep

/-- The text `s` holds an `allow` attribute with the value `v` between the
quote characters `q1` and `q2`: the word `allow`, white space of the class `\s`,
`=`, white space again, `q1`, the non-empty `v`, and `q2`. Nothing is asked
of the characters of `v`: where the value is to hold no quote character, as
the value of the pattern does, that is said next to the predicate. -/
def AllowAttribute (s : Str) (q1 q2 : Char) (v : Str) : Prop :=
  ∃ pre ws1 ws2 post,
    s = pre ++ "allow".toList ++ ws1 ++ ['='] ++ ws2 ++ [q1] ++ v ++ [q2] ++ post ∧
    (∀ c ∈ ws1, regexp.perlSpace c = true) ∧ (∀ c ∈ ws2, regexp.perlSpace c = true) ∧
    isQuote q1 = true ∧ isQuote q2 = true ∧ v ≠ []

/-- The texts `ts` occur in `s` one after the other, without overlap: each
one in what is left of `s` behind the one before. -/
def SegmentsIn : List Str → Str → Prop
  | [], _ => True
  | t :: ts, s => ∃ a b, s = a ++ t ++ b ∧ SegmentsIn ts b

/-- The minimal attribute `allow="t1; t2; ...; tn"` rebuilt from tokens. -/
def rebuildAllow (tokens : List Str) : Str :=
  "allow=\"".toList ++ strings.Join tokens "; ".toList ++ "\"".toList

/-- The text `t` starts with an `allow` attribute of the value `v`, and `rest`
is what follows its closing quote: the word `allow`, white space of the class
`\s`, `=`, white space again, a quote character, the non-empty `v`, which
holds no quote character, and a quote character. -/
def AttributeAt (t v rest : Str) : Prop :=
  ∃ ws1 ws2 q1 q2,
    t = "allow".toList ++ ws1 ++ ['='] ++ ws2 ++ [q1] ++ v ++ [q2] ++ rest ∧
    (∀ c ∈ ws1, regexp.perlSpace c = true) ∧ (∀ c ∈ ws2, regexp.perlSpace c = true) ∧
    isQuote q1 = true ∧ isQuote q2 = true ∧ v ≠ [] ∧ (∀ c ∈ v, isQuote c = false)

/-- The values of the `allow` attributes of a text, in their order of
appearance: either no attribute starts at any position of the text, or the
text is a gap `g` in which no attribute starts, then the leftmost attribute,
and the values of what follows the closing quote of that attribute. -/
inductive AttributeValues : Str → List Str → Prop
  | done (s : Str) (h : ∀ pre t v rest, s = pre ++ t → ¬ AttributeAt t v rest) :
      AttributeValues s []
  | step (g t v rest : Str) (vs : List Str)
      (hgap : ∀ pre g2 v2 rest2, g = pre ++ g2 → g2 ≠ [] → ¬ AttributeAt (g2 ++ t) v2 rest2)
      (hat : AttributeAt t v rest) (hrest : AttributeValues rest vs) :
      AttributeValues (g ++ t) (v :: vs)

/-- The pieces of the value `v` between its `;` characters, in their order:
no piece holds a `;`, and the pieces joined by `;` are `v`. -/
def PiecesOf (v : Str) (ps : List Str) : Prop :=
  ps ≠ [] ∧ (∀ p ∈ ps, ';' ∉ p) ∧ strings.Join ps [';'] = v

/-- The token `t` is the piece `p` without the white space around it. -/
def TrimmedOf (p t : Str) : Prop :=
  ∃ a b, p = a ++ t ++ b ∧ (∀ c ∈ a, unicode.IsSpace c = true) ∧
    (∀ c ∈ b, unicode.IsSpace c = true) ∧
    (∀ c, t.head? = some c → unicode.IsSpace c = false) ∧
    (∀ c, t.getLast? = some c → unicode.IsSpace c = false)

/-! ## Errors with their messages -/

/-- The method `Error()` of a Go error: its message. -/
def GoError.Error : GoError → Str
  | .errorString msg => msg
  | .wrapError msg _ => msg

/-- Go `fmt.Errorf(format, err)` for a format that is the text `pre` followed
by the verb `%w`: a wrapping error whose message is `pre` and the message of
`err`. -/
def fmt.Errorf (pre : Str) (err : GoError) : GoError :=
  .wrapError (pre ++ err.Error) err

/-- The variable `errRedditUnsupported`. -/
def errRedditUnsupported : GoError := .errorString "unsupported reddit url".toList

/-! ## Package `encoding/json`: decoding a document into `[]redditListing` -/

namespace json

/-- A JSON value as the scanner of `encoding/json` reads it; a number keeps
its literal text, a string is already unquoted. -/
inductive Value where
  | null
  | bool (b : Bool)
  | number (lit : Str)
  | string (s : Str)
  | array (elems : List Value)
  | object (members : List (Str × Value))

/-- Go `json.isSpace`. -/
def isSpace (c : Char) : Bool := c = ' ' || c = '\t' || c = '\r' || c = '\n'

/-- Skip white space between tokens. -/
def skipSpace (s : Str) : Str := s.dropWhile isSpace

/-- An ASCII digit. -/
def isDigit (c : Char) : Bool := 48 ≤ c.toNat && c.toNat ≤ 57

/-- A hexadecimal digit of a `\u` escape. -/
def isHex (c : Char) : Bool :=
  isDigit c || (97 ≤ c.toNat && c.toNat ≤ 102) || (65 ≤ c.toNat && c.toNat ≤ 70)

/-- The value of a hexadecimal digit. -/
def hexVal (c : Char) : Nat :=
  if isDigit c then c.toNat - 48
  else if 97 ≤ c.toNat ∧ c.toNat ≤ 102 then c.toNat - 97 + 10
  else c.toNat - 65 + 10

/-- One unit of a string literal: a character (written plainly or with a
one-letter escape) or the code unit of a `\uXXXX` escape. -/
inductive StrUnit where
  | ch (c : Char)
  | u (n : Nat)

/-- The character of a one-letter escape. -/
def escapeChar (c : Char) : Option Char :=
  if c = '"' then some '"'
  else if c = '\\' then some '\\'
  else if c = '/' then some '/'
  else if c = 'b' then some (Char.ofNat 8)
  else if c = 'f' then some (Char.ofNat 12)
  else if c = 'n' then some '\n'
  else if c = 'r' then some '\r'
  else if c = 't' then some '\t'
  else none

/-- The units of a string literal behind its opening quote, and the input
behind its closing quote; `none` for an unterminated literal, a control
character or a bad escape. -/
def scanString : Str → Option (List StrUnit × Str)
  | [] => none
  | c :: rest =>
    if c = '"' then some ([], rest)
    else if c = '\\' then
      match rest with
      | e :: rest1 =>
        if e = 'u' then
          match rest1 with
          | h1 :: h2 :: h3 :: h4 :: rest2 =>
            if isHex h1 && isHex h2 && isHex h3 && isHex h4 then
              (scanString rest2).map fun r =>
                (.u (((hexVal h1 * 16 + hexVal h2) * 16 + hexVal h3) * 16 + hexVal h4) :: r.1, r.2)
            else none
          | _ => none
        else
          match escapeChar e with
          | some x => (scanString rest1).map fun r => (.ch x :: r.1, r.2)
          | none => none
      | [] => none
    else if c.toNat < 0x20 then none
    else (scanString rest).map fun r => (.ch c :: r.1, r.2)

/-- The character of a `\u` escape that is not part of a surrogate pair:
U+FFFD for a surrogate. -/
def loneUnit (n : Nat) : Char :=
  if 0xD800 ≤ n ∧ n < 0xE000 then Char.ofNat 0xFFFD else Char.ofNat n

/-- Go `json.unquote` on the units of a literal: a high and a low surrogate
in two adjacent `\u` escapes give one character, any other surrogate gives
U+FFFD. -/
def unquoteUnits : List StrUnit → Str
  | [] => []
  | .ch c :: rest => c :: unquoteUnits rest
  | [.u hi] => [loneUnit hi]
  | .u hi :: .ch c :: rest => loneUnit hi :: c :: unquoteUnits rest
  | .u hi :: .u lo :: rest =>
    if 0xD800 ≤ hi ∧ hi < 0xDC00 ∧ 0xDC00 ≤ lo ∧ lo < 0xE000 then
      Char.ofNat ((hi - 0xD800) * 1024 + (lo - 0xDC00) + 0x10000) :: unquoteUnits rest
    else loneUnit hi :: unquoteUnits (.u lo :: rest)

/-- A string literal behind its opening quote: its text and the input behind it. -/
def parseString (s : Str) : Option (Str × Str) :=
  (scanString s).map fun r => (unquoteUnits r.1, r.2)

/-- At least one digit: the digits and the input behind them. -/
def digits1 (s : Str) : Option (Str × Str) :=
  if (s.takeWhile isDigit) = [] then none else some (s.takeWhile isDigit, s.dropWhile isDigit)

/-- A number literal: `-?(0|[1-9][0-9]*)(\.[0-9]+)?([eE][+-]?[0-9]+)?`. -/
def parseNumber (s : Str) : Option (Str × Str) :=
  let sign := s.takeWhile (· = '-') |>.take 1
  let s1 := s.drop sign.length
  let intPart : Option (Str × Str) :=
    match s1 with
    | c :: rest => if c = '0' then some (['0'], rest) else digits1 s1
    | [] => none
  match intPart with
  | none => none
  | some (ip, s2) =>
    let frac : Option (Str × Str) :=
      match s2 with
      | '.' :: rest => (digits1 rest).map fun r => ('.' :: r.1, r.2)
      | _ => some ([], s2)
    match frac with
    | none => none
    | some (fp, s3) =>
      let exp : Option (Str × Str) :=
        match s3 with
        | e :: rest =>
          if e = 'e' ∨ e = 'E' then
            let sg := (rest.takeWhile (fun c => c = '+' || c = '-')).take 1
            (digits1 (rest.drop sg.length)).map fun r => (e :: sg ++ r.1, r.2)
          else some ([], s3)
        | [] => some ([], s3)
      match exp with
      | none => none
      | some (ep, s4) => some (sign ++ ip ++ fp ++ ep, s4)

/-- The elements of an array behind the first white space after `[`, for a
non-empty array: values separated by `,` up to `]`.  `pv` reads one value,
`n` bounds the number of elements. -/
def parseElems (pv : Str → Option (Value × Str)) : Nat → Str → Option (List Value × Str)
  | 0, _ => none
  | n + 1, s =>
    match pv s with
    | none => none
    | some (v, rest) =>
      match skipSpace rest with
      | c :: rest1 =>
        if c = ',' then (parseElems pv n (skipSpace rest1)).map fun r => (v :: r.1, r.2)
        else if c = ']' then some ([v], rest1)
        else none
      | [] => none

/-- The members of a non-empty object: `"key": value` separated by `,` up to `}`. -/
def parseMembers (pv : Str → Option (Value × Str)) :
    Nat → Str → Option (List (Str × Value) × Str)
  | 0, _ => none
  | n + 1, s =>
    match s with
    | q :: s0 =>
      if q = '"' then
        match parseString s0 with
        | none => none
        | some (key, s1) =>
          match skipSpace s1 with
          | colon :: s2 =>
            if colon = ':' then
              match pv (skipSpace s2) with
              | none => none
              | some (v, rest) =>
                match skipSpace rest with
                | c :: rest1 =>
                  if c = ',' then
                    (parseMembers pv n (skipSpace rest1)).map fun r => ((key, v) :: r.1, r.2)
                  else if c = '}' then some ([(key, v)], rest1)
                  else none
                | [] => none
            else none
          | [] => none
      else none
    | [] => none

/-- One value at the start of the input (white space already skipped) and the
input behind it; `depth` is the number of nested arrays and objects still
allowed (Go allows 10000). -/
def parseValue : Nat → Str → Option (Value × Str)
  | depth, s =>
    match s with
    | [] => none
    | c :: rest =>
      if c = '[' then
        match depth with
        | 0 => none
        | d + 1 =>
          match skipSpace rest with
          | [] => none
          | c1 :: rest1 =>
            if c1 = ']' then some (.array [], rest1)
            else (parseElems (parseValue d) (c1 :: rest1).length (c1 :: rest1)).map
              fun r => (.array r.1, r.2)
      else if c = '{' then
        match depth with
        | 0 => none
        | d + 1 =>
          match skipSpace rest with
          | [] => none
          | c1 :: rest1 =>
            if c1 = '}' then some (.object [], rest1)
            else (parseMembers (parseValue d) (c1 :: rest1).length (c1 :: rest1)).map
              fun r => (.object r.1, r.2)
      else if c = '"' then (parseString rest).map fun r => (.string r.1, r.2)
      else if "true".toList.isPrefixOf s then some (.bool true, s.drop 4)
      else if "false".toList.isPrefixOf s then some (.bool false, s.drop 5)
      else if "null".toList.isPrefixOf s then some (.null, s.drop 4)
      else (parseNumber s).map fun r => (.number r.1, r.2)

/-- Go `json.maxNestingDepth`. -/
def maxNestingDepth : Nat := 10000

/-- Go `json.checkValid` with the value read: a document is one value between
optional white space. -/
def parseDocument (data : Str) : Option Value :=
  match parseValue maxNestingDepth (skipSpace data) with
  | some (v, rest) => if skipSpace rest = [] then some v else none
  | none => none

end json

namespace json

/-- Go `json.foldRune` as far as keys are compared with ASCII field names:
ASCII letters fold to upper case, the Kelvin sign to `K`, the long s to `S`. -/
def foldRune (c : Char) : Char :=
  if 97 ≤ c.toNat ∧ c.toNat ≤ 122 then Char.ofNat (c.toNat - 32)
  else if c.toNat = 0x212A then 'K'
  else if c.toNat = 0x17F then 'S'
  else c

/-- A key of the document names the field with the JSON name `name`:
exactly, or after case folding. -/
def keyMatches (key : Str) (name : String) : Bool :=
  key.map foldRune = name.toList.map foldRune

/-- Go `strconv.ParseInt(lit, 10, 64)` on a number literal, as the decoder
uses it for an `int` field: digits only behind an optional `-`, and a value
in the range of `int64`. -/
def parseInt64 (lit : Str) : Option Int :=
  let neg := lit.head? = some '-'
  let ds := if neg then lit.drop 1 else lit
  if ds = [] ∨ ¬ ds.all isDigit then none
  else
    let n : Nat := ds.foldl (fun acc c => acc * 10 + (c.toNat - 48)) 0
    if neg then (if n ≤ 9223372036854775808 then some (-(n : Int)) else none)
    else (if n ≤ 9223372036854775807 then some (n : Int) else none)

/-- Decoding into a `string` that holds `cur`: `none` stands for an
`UnmarshalTypeError`. -/
def decodeString (cur : Str) : Value → Option Str
  | .string s => some s
  | .null => some cur
  | _ => none

/-- Decoding into a `bool`. -/
def decodeBool (cur : Bool) : Value → Option Bool
  | .bool b => some b
  | .null => some cur
  | _ => none

/-- Decoding into an `int`. -/
def decodeInt (cur : Int) : Value → Option Int
  | .number lit => parseInt64 lit
  | .null => some cur
  | _ => none

/-- Decoding into a pointer field that holds `cur`: `null` sets it to `nil`,
any other value is decoded into the value pointed to, a new zero value when
the pointer is `nil`. -/
def decodePtr {α : Type} (dec : α → Value → Option α) (zero : α) (cur : Option α) :
    Value → Option (Option α)
  | .null => some none
  | v => (dec (cur.getD zero) v).map some

/-- The element loop of decoding an array into a slice: element `i` of the
document is decoded into element `i` of the slice when there is one, and into
a zero value otherwise.  (A slice holds elements already only when an object
repeats a key; behind the length of such a slice Go may find what a longer
array under the same key left in the backing store, which the model takes as
zero values.) -/
def decodeElems {α : Type} (dec : α → Value → Option α) (zero : α) :
    List α → List Value → Option (List α)
  | _, [] => some []
  | cur, v :: vs =>
    match dec (cur.headD zero) v with
    | none => none
    | some x => (decodeElems dec zero cur.tail vs).map fun r => x :: r

/-- Decoding into a slice that holds `cur`. -/
def decodeSlice {α : Type} (dec : α → Value → Option α) (zero : α) (cur : List α) :
    Value → Option (List α)
  | .array elems => decodeElems dec zero cur elems
  | .null => some []
  | _ => none

/-- Decoding into a struct that holds `cur`: the members of an object are
taken in order, each one decoded into the field its key names, if any;
`fields` lists the JSON names with the decoders of their fields. -/
def decodeStruct {α : Type} (fields : List (String × (α → Value → Option α))) (cur : α) :
    Value → Option α
  | .object members =>
    members.foldl (fun acc m =>
      match acc with
      | none => none
      | some x =>
        match fields.find? (fun f => keyMatches m.1 f.1) with
        | some f => f.2 x m.2
        | none => some x) (some cur)
  | .null => some cur
  | _ => none

end json

/-! ## The decoders of the types of `reddit.go`, after their `json` tags -/

/-- The zero value of `redditVideo`. -/
def redditVideo.zero : redditVideo := { FallbackURL := [], Width := 0, Height := 0 }

/-- The zero value of `redditImage`. -/
def redditImage.zero : redditImage := { Source := { URL := [], Width := 0, Height := 0 } }

/-- The zero value of `redditPost`. -/
def redditPost.zero : redditPost :=
  { Title := [], Selftext := [], SubredditNamePrefixed := [], Thumbnail := [],
    URLOverriddenByDest := [], Over18 := false, PostHint := [], Preview := none,
    Media := none, SecureMedia := none }

/-- The zero value of `redditChild`. -/
def redditChild.zero : redditChild := { Kind := [], Data := redditPost.zero }

/-- The zero value of `redditListing`. -/
def redditListing.zero : redditListing := { Kind := [], Data := { Children := [] } }

/-- Decoder of `redditVideo`. -/
def redditVideo.decode : redditVideo → json.Value → Option redditVideo :=
  json.decodeStruct
    [("fallback_url", fun x v => (json.decodeString x.FallbackURL v).map
        fun y => { x with FallbackURL := y }),
     ("width", fun x v => (json.decodeInt x.Width v).map fun y => { x with Width := y }),
     ("height", fun x v => (json.decodeInt x.Height v).map fun y => { x with Height := y })]

/-- Decoder of `redditMedia`. -/
def redditMedia.decode : redditMedia → json.Value → Option redditMedia :=
  json.decodeStruct
    [("reddit_video", fun x v =>
        (json.decodePtr redditVideo.decode redditVideo.zero x.RedditVideo v).map
          fun y => { x with RedditVideo := y })]

/-- Decoder of `redditImageSource`. -/
def redditImageSource.decode : redditImageSource → json.Value → Option redditImageSource :=
  json.decodeStruct
    [("url", fun x v => (json.decodeString x.URL v).map fun y => { x with URL := y }),
     ("width", fun x v => (json.decodeInt x.Width v).map fun y => { x with Width := y }),
     ("height", fun x v => (json.decodeInt x.Height v).map fun y => { x with Height := y })]

/-- Decoder of `redditImage`. -/
def redditImage.decode : redditImage → json.Value → Option redditImage :=
  json.decodeStruct
    [("source", fun x v => (redditImageSource.decode x.Source v).map
        fun y => { x with Source := y })]

/-- Decoder of `redditPreview`. -/
def redditPreview.decode : redditPreview → json.Value → Option redditPreview :=
  json.decodeStruct
    [("images", fun x v =>
        (json.decodeSlice redditImage.decode redditImage.zero x.Images v).map
          fun y => { x with Images := y })]

/-- Decoder of `redditPost`. -/
def redditPost.decode : redditPost → json.Value → Option redditPost :=
  json.decodeStruct
    [("title", fun x v => (json.decodeString x.Title v).map fun y => { x with Title := y }),
     ("selftext", fun x v => (json.decodeString x.Selftext v).map
        fun y => { x with Selftext := y }),
     ("subreddit_name_prefixed", fun x v => (json.decodeString x.SubredditNamePrefixed v).map
        fun y => { x with SubredditNamePrefixed := y }),
     ("thumbnail", fun x v => (json.decodeString x.Thumbnail v).map
        fun y => { x with Thumbnail := y }),
     ("url_overridden_by_dest", fun x v => (json.decodeString x.URLOverriddenByDest v).map
        fun y => { x with URLOverriddenByDest := y }),
     ("over_18", fun x v => (json.decodeBool x.Over18 v).map fun y => { x with Over18 := y }),
     ("post_hint", fun x v => (json.decodeString x.PostHint v).map
        fun y => { x with PostHint := y }),
     ("preview", fun x v =>
        (json.decodePtr redditPreview.decode { Images := [] } x.Preview v).map
          fun y => { x with Preview := y }),
     ("media", fun x v =>
        (json.decodePtr redditMedia.decode { RedditVideo := none } x.Media v).map
          fun y => { x with Media := y }),
     ("secure_media", fun x v =>
        (json.decodePtr redditMedia.decode { RedditVideo := none } x.SecureMedia v).map
          fun y => { x with SecureMedia := y })]

/-- Decoder of `redditChild`. -/
def redditChild.decode : redditChild → json.Value → Option redditChild :=
  json.decodeStruct
    [("kind", fun x v => (json.decodeString x.Kind v).map fun y => { x with Kind := y }),
     ("data", fun x v => (redditPost.decode x.Data v).map fun y => { x with Data := y })]

/-- Decoder of the anonymous struct of `redditListing.Data`. -/
def redditListingData.decode : redditListingData → json.Value → Option redditListingData :=
  json.decodeStruct
    [("children", fun x v =>
        (json.decodeSlice redditChild.decode redditChild.zero x.Children v).map
          fun y => { x with Children := y })]

/-- Decoder of `redditListing`. -/
def redditListing.decode : redditListing → json.Value → Option redditListing :=
  json.decodeStruct
    [("kind", fun x v => (json.decodeString x.Kind v).map fun y => { x with Kind := y }),
     ("data", fun x v => (redditListingData.decode x.Data v).map fun y => { x with Data := y })]

/-- The value that `json.Unmarshal(body, &listings)` leaves in the nil slice
`listings`, or `none` when it returns an error (a syntax error, or a value of
the wrong type for its place). -/
def json.decodeListings (body : Str) : Option (List redditListing) :=
  match json.parseDocument body with
  | none => none
  | some v => json.decodeSlice redditListing.decode redditListing.zero [] v

/-- Go `json.Unmarshal(body, &listings)` for a nil `[]redditListing`; `errOf`
gives the error that `encoding/json` reports for a document it rejects. -/
def json.Unmarshal (errOf : Str → GoError) (body : Str) : Except GoError (List redditListing) :=
  match json.decodeListings body with
  | some listings => .ok listings
  | none => .error (errOf body)

/-! ## `reddit.go`: the two entry points -/

/-- Source `summarizeRedditFromJSON`; `unmarshal` stands for
`json.Unmarshal(body, &listings)`. -/
def summarizeRedditFromJSON (tb : html.EntityTables)
    (unmarshal : Str → Except GoError (List redditListing)) (siteUrl : url.URL) (body : Str) :
    SummaryResult :=
  match unmarshal body with
  | .error err => (none, some (fmt.Errorf "failed to decode reddit json: ".toList err))
  | .ok listings => summarizeRedditFromListings tb siteUrl listings

/-- The response of the fetch client, as far as `summarizeReddit` looks at it;
`closeErr` is the error of `Body.Close()`, if any. -/
structure Response where
  StatusCode : Int
  Status : Str
  Body : Str
  closeErr : Option GoError

/-- The collaborators of `summarizeReddit` outside the repository:
`http.NewRequest` (its error, if any, for a URL text), the `Send` of the fetch
client (for a URL text), and `json.NewDecoder(body).Decode(&listings)`. -/
structure RedditEnv where
  NewRequest : Str → Option GoError
  Send : Str → Except GoError Response
  Decode : Str → Except GoError (List redditListing)

/-- How a Go call ends: it returns, or it panics. -/
inductive Outcome (α : Type) where
  | returned (a : α)
  | panicked (err : GoError)

/-- Source `summarizeReddit`. -/
def summarizeReddit (tbl : Char → Char) (tb : html.EntityTables) (env : RedditEnv)
    (siteUrl : url.URL) : Outcome SummaryResult :=
  let r := buildRedditJSONURL tbl siteUrl
  if r.2 = false then .returned (none, some errRedditUnsupported)
  else
    match env.NewRequest r.1 with
    | some newReqErr =>
      .returned (none, some (fmt.Errorf "failed to create reddit request: ".toList newReqErr))
    | none =>
      match env.Send r.1 with
      | .error respErr => .returned (none, some respErr)
      | .ok resp =>
        if resp.StatusCode ≠ 200 then
          .returned (none, some (.errorString ("non-200 status code: ".toList ++ resp.Status)))
        else
          let result : SummaryResult :=
            match env.Decode resp.Body with
            | .error err =>
              (none, some (fmt.Errorf "failed to decode reddit json: ".toList err))
            | .ok listings => summarizeRedditFromListings tb siteUrl listings
          match resp.closeErr with
          | some err => .panicked err
          | none => .returned result

/-- The text of `redditJSONSample` in `reddit_test.go`. -/
def redditJSONSample : Str :=
  ("[\n  \x7b\n    \"kind\": \"Listing\",\n    \"data\": \x7b\n      \"children\": [\n" ++
   "        \x7b\n          \"kind\": \"t3\",\n          \"data\": \x7b\n" ++
   "            \"title\": \"Example title\",\n" ++
   "            \"selftext\": \"Example body\",\n" ++
   "            \"subreddit_name_prefixed\": \"r/test\",\n" ++
   "            \"thumbnail\": \"https://example.com/thumb.jpg\",\n" ++
   "            \"over_18\": true,\n" ++
   "            \"post_hint\": \"image\",\n" ++
   "            \"url_overridden_by_dest\": \"https://i.redd.it/example.png\",\n" ++
   "            \"preview\": \x7b\n              \"images\": [\n                \x7b\n" ++
   "                  \"source\": \x7b\n" ++
   "                    \"url\": \"https://preview.redd.it/example.png?width=640&amp;auto=webp\",\n" ++
   "                    \"width\": 640,\n                    \"height\": 480\n" ++
   "                  \x7d\n                \x7d\n              ]\n            \x7d\n" ++
   "          \x7d\n        \x7d\n      ]\n    \x7d\n  \x7d\n]").toList

/-- An error of `encoding/json` for the examples, whatever the document. -/
def sampleJSONError : Str → GoError :=
  fun _ => .errorString "unexpected end of JSON input".toList

/-- The listing of `redditJSONSample`, decoded. -/
def sampleListings : List redditListing :=
  [{ Kind := "Listing".toList,
     Data := { Children := [{ Kind := "t3".toList, Data := samplePost }] } }]

/-! ## The permission filter: lemmas -/

/-- One pass over a list of safe names appends `rp` once per equal entry. -/
theorem appendMatches_eq (rp : Str) (sps allowed : List Str) :
    appendMatches rp sps allowed =
      allowed ++ List.replicate (sps.countP (fun sp => decide (rp = sp))) rp := by
  induction sps generalizing allowed with
  | nil => simp [appendMatches]
  | cons sp sps ih =>
    by_cases h : rp = sp
    · subst h
      simp [appendMatches, ih, List.replicate_succ]
    · simp [appendMatches, ih, h, List.countP_cons]

/-- One pass over the safe list appends a safe `rp` exactly once and any
other `rp` not at all. -/
theorem appendMatches_safe (rp : Str) (allowed : List Str) :
    appendMatches rp safePermissions allowed =
      allowed ++ (if rp ∈ safePermissions then [rp] else []) := by
  rw [appendMatches_eq]
  by_cases h : rp ∈ safePermissions
  · have h1 : safePermissions.countP (fun sp => decide (rp = sp)) = 1 := by
      simp only [safePermissions, List.mem_cons, List.mem_singleton, List.not_mem_nil,
        or_false] at h
      rcases h with h | h | h | h | h <;> subst h <;> decide
    rw [h1]
    simp [h]
  · have h0 : safePermissions.countP (fun sp => decide (rp = sp)) = 0 := by
      rw [List.countP_eq_zero]
      intro a ha hEq
      exact h (by simpa using (of_decide_eq_true hEq) ▸ ha)
    rw [h0]
    simp [h]

/-- The outer loop keeps, in order, the entries that are in the safe list. -/
theorem filterLoop_eq (rps allowed : List Str) :
    filterLoop rps allowed = allowed ++ rps.filter (fun t => decide (t ∈ safePermissions)) := by
  induction rps generalizing allowed with
  | nil => simp [filterLoop]
  | cons rp rps ih =>
    rw [filterLoop, ih, appendMatches_safe]
    by_cases h : rp ∈ safePermissions
    · simp [h, List.filter_cons]
    · simp [h, List.filter_cons]

/-! ## Claims C1 and C2 -/

/-- C1: every token returned by `filterSafeIframePermissions` is one of the
five safe names, spelled exactly; in particular neither the case variant
`Autoplay` nor the token `camera` is ever returned. -/
theorem filterSafeIframePermissions_subset_safe (s : Str) :
    (∀ t ∈ filterSafeIframePermissions s,
        t = "autoplay".toList ∨ t = "clipboard-write".toList ∨
        t = "picture-in-picture".toList ∨ t = "web-share".toList ∨
        t = "fullscreen".toList) ∧
    "Autoplay".toList ∉ filterSafeIframePermissions s ∧
    "camera".toList ∉ filterSafeIframePermissions s := by
  have key : ∀ t ∈ filterSafeIframePermissions s, t ∈ safePermissions := by
    intro t ht
    unfold filterSafeIframePermissions at ht
    rw [filterLoop_eq] at ht
    simp only [List.nil_append, List.mem_filter, decide_eq_true_eq] at ht
    exact ht.2
  refine ⟨?_, ?_, ?_⟩
  · intro t ht
    have h := key t ht
    simpa [safePermissions] using h
  · intro h
    exact absurd (key _ h) (by decide)
  · intro h
    exact absurd (key _ h) (by decide)

/-- C2: `filterSafeIframePermissions` returns the extracted tokens with
exactly the unsafe ones removed: order kept, each kept occurrence once,
repeated safe tokens not merged (`autoplay; autoplay` gives two entries). -/
theorem filterSafeIframePermissions_eq_filter :
    (∀ s : Str, filterSafeIframePermissions s =
        (getRequiredPermissionsFromIframe s).filter (fun t => decide (t ∈ safePermissions))) ∧
    getRequiredPermissionsFromIframe "allow=\"autoplay; autoplay\"".toList =
        ["autoplay".toList, "autoplay".toList] ∧
    filterSafeIframePermissions "allow=\"autoplay; autoplay\"".toList =
        ["autoplay".toList, "autoplay".toList] := by
  refine ⟨?_, by decide, by decide⟩
  intro s
  unfold filterSafeIframePermissions
  rw [filterLoop_eq]
  simp

/-! ## The endpoint resolver: claims C3, C4 and C5 -/

/-- The host name of a URL whose `Host` has no colon and no bracket is `Host`. -/
theorem hostname_lookalikes (u : url.URL) :
    url.URL.Hostname { u with Host := "notreddit.com".toList } = "notreddit.com".toList ∧
    url.URL.Hostname { u with Host := "reddit.com.example.org".toList } =
      "reddit.com.example.org".toList := by
  constructor
  · show url.splitHost "notreddit.com".toList = "notreddit.com".toList
    decide
  · show url.splitHost "reddit.com.example.org".toList = "reddit.com.example.org".toList
    decide

/-- The two look-alike hosts are no Reddit hosts, whatever the case table. -/
theorem isRedditHost_lookalikes (tbl : Char → Char) :
    isRedditHost tbl "notreddit.com".toList = false ∧
    isRedditHost tbl "reddit.com.example.org".toList = false := by
  constructor <;> rfl

/-- C3: `buildRedditJSONURL` reports success exactly when the lower-cased host
name is `reddit.com` or ends with `.reddit.com` and the path contains
`/comments/`; in every other case it returns the empty string and `false`.
The hosts `notreddit.com` and `reddit.com.example.org` are refused. -/
theorem buildRedditJSONURL_ok_iff (tbl : Char → Char) (u : url.URL) :
    ((buildRedditJSONURL tbl u).2 = true ↔
      ((strings.ToLower tbl u.Hostname = "reddit.com".toList ∨
        strings.HasSuffix (strings.ToLower tbl u.Hostname) ".reddit.com".toList = true) ∧
       strings.Contains u.Path "/comments/".toList = true)) ∧
    ((buildRedditJSONURL tbl u).2 = true ∨ buildRedditJSONURL tbl u = ([], false)) ∧
    buildRedditJSONURL tbl { u with Host := "notreddit.com".toList } = ([], false) ∧
    buildRedditJSONURL tbl { u with Host := "reddit.com.example.org".toList } = ([], false) := by
  refine ⟨?_, ?_, ?_, ?_⟩
  · have hhost : isRedditHost tbl u.Hostname = true ↔
        (strings.ToLower tbl u.Hostname = "reddit.com".toList ∨
          strings.HasSuffix (strings.ToLower tbl u.Hostname) ".reddit.com".toList = true) := by
      simp [isRedditHost]
    rw [← hhost]
    unfold buildRedditJSONURL
    generalize isRedditHost tbl u.Hostname = a
    generalize strings.Contains u.Path "/comments/".toList = b
    generalize strings.HasSuffix u.Path ".json".toList = c
    cases a <;> cases b <;> cases c <;> simp
  · unfold buildRedditJSONURL
    generalize isRedditHost tbl u.Hostname = a
    generalize strings.Contains u.Path "/comments/".toList = b
    generalize strings.HasSuffix u.Path ".json".toList = c
    cases a <;> cases b <;> cases c <;> simp
  · unfold buildRedditJSONURL
    rw [(hostname_lookalikes u).1, (isRedditHost_lookalikes tbl).1]
    rfl
  · unfold buildRedditJSONURL
    rw [(hostname_lookalikes u).2, (isRedditHost_lookalikes tbl).2]
    rfl

/-- C4: for an accepted URL with path `p` the endpoint is the serialization
of the URL with its path set to `p` when `p` ends with `.json`, to
`p ++ ".json"` when `p` ends with `/`, and to `p ++ "/.json"` otherwise. -/
theorem buildRedditJSONURL_endpoint (tbl : Char → Char) (u : url.URL)
    (hok : (buildRedditJSONURL tbl u).2 = true) :
    (buildRedditJSONURL tbl u).1 =
      url.URL.String
        { u with
          Path :=
            if strings.HasSuffix u.Path ".json".toList = true then u.Path
            else if strings.HasSuffix u.Path "/".toList = true then u.Path ++ ".json".toList
            else u.Path ++ "/.json".toList } := by
  simp only [buildRedditJSONURL] at hok ⊢
  split_ifs at hok ⊢ <;> rfl

/-- C4 at the URL of the test: the path ends with `/`, so `.json` is appended. -/
theorem buildRedditJSONURL_endpoint_witness :
    (buildRedditJSONURL noCaseTable sampleURL).2 = true ∧
    (buildRedditJSONURL noCaseTable sampleURL).1 =
      url.URL.String { sampleURL with Path := "/r/test/comments/abc/example/.json".toList } ∧
    (buildRedditJSONURL noCaseTable sampleURL).1 =
      "https://www.reddit.com/r/test/comments/abc/example/.json".toList :=
  ⟨by decide,
   (buildRedditJSONURL_endpoint noCaseTable sampleURL (by decide)).trans (by decide),
   by decide⟩

/-- C5 fails at a URL whose path was written with an escaped slash: the
serialized input keeps `%2F`, the endpoint spells the path again from its
decoded form, so it differs from the input by more than the added suffix. -/
theorem buildRedditJSONURL_rawPath_respelled :
    url.URL.String encodedSlashURL =
      "https://www.reddit.com/r/a%2Fb/comments/x?s=1#top".toList ∧
    strings.Contains encodedSlashURL.Path "/comments/".toList = true ∧
    strings.HasSuffix encodedSlashURL.Path ".json".toList = false ∧
    buildRedditJSONURL noCaseTable encodedSlashURL =
      ("https://www.reddit.com/r/a/b/comments/x/.json?s=1#top".toList, true) := by
  decide

/-! ## The endpoint of a URL whose path has the default encoding -/

/-- Escaping works byte by byte, so it commutes with concatenation. -/
theorem url.escape_append (p s : Str) (mode : url.encoding) :
    url.escape (p ++ s) mode = url.escape p mode ++ url.escape s mode := by
  simp [url.escape, utf8.bytes, List.flatMap_append]

/-- A character has at least one byte. -/
theorem utf8.EncodeRune_ne_nil (c : Char) : utf8.EncodeRune c ≠ [] := by
  unfold utf8.EncodeRune
  dsimp only
  split_ifs <;> exact List.cons_ne_nil _ _

/-- The escaped form of a non-empty string is non-empty. -/
theorem url.escape_ne_nil (c : Char) (cs : Str) (mode : url.encoding) :
    url.escape (c :: cs) mode ≠ [] := by
  obtain ⟨b, bs, hb⟩ := List.exists_cons_of_ne_nil (utf8.EncodeRune_ne_nil c)
  intro h
  simp only [url.escape, utf8.bytes, List.flatMap_cons, hb, List.cons_append,
    List.append_eq_nil] at h
  have h1 := h.1
  split_ifs at h1

/-- The two suffixes of the rewrite need no escaping in a path. -/
theorem url.escape_json_suffix :
    url.escape ".json".toList url.encoding.encodePath = ".json".toList ∧
    url.escape "/.json".toList url.encoding.encodePath = "/.json".toList := by
  decide

/-- The empty host is no Reddit host. -/
theorem isRedditHost_nil (tbl : Char → Char) : isRedditHost tbl (url.splitHost []) = false := rfl

/-- The success flag of `buildRedditJSONURL` is the conjunction of its two tests. -/
theorem buildRedditJSONURL_snd (tbl : Char → Char) (u : url.URL) :
    (buildRedditJSONURL tbl u).2 =
      (isRedditHost tbl u.Hostname && strings.Contains u.Path "/comments/".toList) := by
  unfold buildRedditJSONURL
  generalize isRedditHost tbl u.Hostname = a
  generalize strings.Contains u.Path "/comments/".toList = b
  generalize strings.HasSuffix u.Path ".json".toList = c
  cases a <;> cases b <;> cases c <;> rfl

/-- Serialization of a URL with host, default path encoding and no opaque
part, after text `suffix` that needs no escaping has been appended to a
non-empty path: the suffix appears right behind the escaped path, everything
else is unchanged. -/
theorem url.String_append_path (u : url.URL) (suffix : Str) (hhost : u.Host ≠ [])
    (hpath : u.Path ≠ []) (hstar : u.Path ≠ "*".toList) (hraw : u.RawPath = [])
    (hop : u.Opaque = []) (hsuf : url.escape suffix url.encoding.encodePath = suffix)
    (hne : suffix ≠ []) :
    ∃ pre post,
      post = (if u.ForceQuery = true ∨ u.RawQuery ≠ [] then "?".toList ++ u.RawQuery else []) ++
        (if u.Fragment ≠ [] then "#".toList ++ u.EscapedFragment else []) ∧
      u.String = pre ++ url.escape u.Path url.encoding.encodePath ++ post ∧
      url.URL.String { u with Path := u.Path ++ suffix } =
        pre ++ url.escape u.Path url.encoding.encodePath ++ suffix ++ post := by
  obtain ⟨scheme, opq, user, host, path, rawPath, omitHost, force, query, frag, rawFrag⟩ := u
  dsimp only at hhost hpath hstar hraw hop ⊢
  subst hraw hop
  obtain ⟨c, cs, hc⟩ := List.exists_cons_of_ne_nil hpath
  have hesc : url.escape path url.encoding.encodePath ≠ [] := by
    rw [hc]
    exact url.escape_ne_nil c cs _
  have hstar2 : path ++ suffix ≠ "*".toList := by
    intro h
    have hl := congrArg List.length h
    rw [hc] at hl
    obtain ⟨d, ds, hd⟩ := List.exists_cons_of_ne_nil hne
    rw [hd] at hl
    simp at hl
  have hp1 : url.URL.EscapedPath ⟨scheme, [], user, host, path, [], omitHost, force, query, frag,
      rawFrag⟩ = url.escape path url.encoding.encodePath := by
    unfold url.URL.EscapedPath
    dsimp only
    rw [if_neg (fun h => h.1 rfl), if_neg hstar]
  have hp2 : url.URL.EscapedPath ⟨scheme, [], user, host, path ++ suffix, [], omitHost, force, query,
      frag, rawFrag⟩ = url.escape path url.encoding.encodePath ++ suffix := by
    unfold url.URL.EscapedPath
    dsimp only
    rw [if_neg (fun h => h.1 rfl), if_neg hstar2, url.escape_append, hsuf]
  have hauth : url.URL.authority ⟨scheme, [], user, host, path ++ suffix, [], omitHost, force, query,
      frag, rawFrag⟩ = url.URL.authority ⟨scheme, [], user, host, path, [], omitHost, force, query,
      frag, rawFrag⟩ := by
    simp [url.URL.authority, hhost]
  have hauthne : url.URL.authority ⟨scheme, [], user, host, path, [], omitHost, force, query,
      frag, rawFrag⟩ ≠ [] := by
    simp [url.URL.authority, hhost]
  have hhead : (url.escape path url.encoding.encodePath ++ suffix).head? =
      (url.escape path url.encoding.encodePath).head? := by
    obtain ⟨e, es, he⟩ := List.exists_cons_of_ne_nil hesc
    rw [he]
    rfl
  have hfrag : url.URL.EscapedFragment ⟨scheme, [], user, host, path ++ suffix, [], omitHost, force,
      query, frag, rawFrag⟩ = url.URL.EscapedFragment ⟨scheme, [], user, host, path, [], omitHost,
      force, query, frag, rawFrag⟩ := rfl
  refine ⟨(if scheme ≠ [] then scheme ++ ":".toList else []) ++
      url.URL.authority ⟨scheme, [], user, host, path, [], omitHost, force, query, frag, rawFrag⟩ ++
      (if (url.escape path url.encoding.encodePath).head? ≠ some '/' then "/".toList else []),
    _, rfl, ?_, ?_⟩
  · unfold url.URL.String url.URL.hierPart
    dsimp only
    rw [hp1]
    generalize url.URL.authority ⟨scheme, [], user, host, path, [], omitHost, force, query, frag,
      rawFrag⟩ = A at hauthne ⊢
    by_cases hs : scheme = [] <;>
      by_cases hh : (url.escape path url.encoding.encodePath).head? = some '/' <;>
      simp [hs, hh, hesc, hhost, hauthne]
  · unfold url.URL.String url.URL.hierPart
    dsimp only
    rw [hp2, hauth, hfrag, hhead]
    generalize url.URL.authority ⟨scheme, [], user, host, path, [], omitHost, force, query, frag,
      rawFrag⟩ = A at hauthne ⊢
    by_cases hs : scheme = [] <;>
      by_cases hh : (url.escape path url.encoding.encodePath).head? = some '/' <;>
      simp [hs, hh, hesc, hhost, hauthne]

/-- When the path has the default encoding (`RawPath` and `Opaque` empty), the
endpoint of an accepted URL whose path does not end with `.json` is the
serialized URL with `.json` or `/.json` inserted right behind the path:
scheme, user, host, path text, query and fragment are those of the input. -/
theorem buildRedditJSONURL_default_encoding (tbl : Char → Char) (u : url.URL)
    (hok : (buildRedditJSONURL tbl u).2 = true)
    (hjson : strings.HasSuffix u.Path ".json".toList = false)
    (hraw : u.RawPath = []) (hop : u.Opaque = []) :
    ∃ pre post suffix,
      (suffix = ".json".toList ∨ suffix = "/.json".toList) ∧
      post = (if u.ForceQuery = true ∨ u.RawQuery ≠ [] then "?".toList ++ u.RawQuery else []) ++
        (if u.Fragment ≠ [] then "#".toList ++ u.EscapedFragment else []) ∧
      u.String = pre ++ url.escape u.Path url.encoding.encodePath ++ post ∧
      (buildRedditJSONURL tbl u).1 =
        pre ++ url.escape u.Path url.encoding.encodePath ++ suffix ++ post := by
  rw [buildRedditJSONURL_snd, Bool.and_eq_true] at hok
  obtain ⟨hh, hc⟩ := hok
  have hhost : u.Host ≠ [] := by
    intro h
    have h0 := isRedditHost_nil tbl
    unfold url.URL.Hostname at hh
    rw [h, h0] at hh
    cases hh
  have hpath : u.Path ≠ [] := by
    intro h
    rw [h] at hc
    revert hc
    decide
  have hstar : u.Path ≠ "*".toList := by
    intro h
    rw [h] at hc
    revert hc
    decide
  have hres : (buildRedditJSONURL tbl u).1 =
      url.URL.String { u with Path := u.Path ++
        (if strings.HasSuffix u.Path "/".toList = true then ".json".toList else "/.json".toList) } := by
    simp only [buildRedditJSONURL]
    rw [hh, hc, hjson]
    by_cases hs : strings.HasSuffix u.Path "/".toList = true
    · rw [if_pos hs, if_pos hs]
      rfl
    · rw [if_neg hs, if_neg hs]
      rfl
  by_cases hs : strings.HasSuffix u.Path "/".toList = true
  · rw [if_pos hs] at hres
    obtain ⟨pre, post, hpost, h1, h2⟩ := url.String_append_path u ".json".toList hhost hpath
      hstar hraw hop url.escape_json_suffix.1 (by decide)
    exact ⟨pre, post, _, Or.inl rfl, hpost, h1, hres.trans h2⟩
  · rw [if_neg hs] at hres
    obtain ⟨pre, post, hpost, h1, h2⟩ := url.String_append_path u "/.json".toList hhost hpath
      hstar hraw hop url.escape_json_suffix.2 (by decide)
    exact ⟨pre, post, _, Or.inr rfl, hpost, h1, hres.trans h2⟩

/-! ## Locating the post: claim C6 -/

/-- The inner loop returns nothing exactly when no child has kind `t3`. -/
theorem findInChildren_eq_none (cs : List redditChild) :
    findInChildren cs = none ↔ ∀ c ∈ cs, c.Kind ≠ "t3".toList := by
  induction cs with
  | nil => simp [findInChildren]
  | cons c cs ih =>
    by_cases h : c.Kind = "t3".toList
    · rw [findInChildren, if_pos h]
      simp only [List.mem_cons, forall_eq_or_imp]
      exact ⟨fun e => Option.noConfusion e, fun e => absurd h e.1⟩
    · rw [findInChildren, if_neg h, ih]
      simp only [List.mem_cons, forall_eq_or_imp]
      exact ⟨fun e => ⟨h, e⟩, fun e => e.2⟩

/-- When the inner loop returns, it returns the data of the first `t3` child. -/
theorem findInChildren_eq_some (cs : List redditChild) (d : redditPost)
    (h : findInChildren cs = some d) :
    ∃ pre c post, cs = pre ++ c :: post ∧ (∀ x ∈ pre, x.Kind ≠ "t3".toList) ∧
      c.Kind = "t3".toList ∧ c.Data = d := by
  induction cs with
  | nil => simp [findInChildren] at h
  | cons c cs ih =>
    by_cases hk : c.Kind = "t3".toList
    · refine ⟨[], c, cs, rfl, by simp, hk, ?_⟩
      rw [findInChildren, if_pos hk] at h
      exact Option.some.inj h
    · have h2 : findInChildren cs = some d := by
        rw [findInChildren, if_neg hk] at h
        exact h
      obtain ⟨pre, c1, post, hcs, hpre, hc1, hd⟩ := ih h2
      refine ⟨c :: pre, c1, post, by simp [hcs], ?_, hc1, hd⟩
      intro x hx
      rcases List.mem_cons.mp hx with hx | hx
      · exact hx ▸ hk
      · exact hpre x hx

/-- The search fails, with the "post not found" error, exactly when no child
of any listing has kind `t3`. -/
theorem redditFindPost_eq_error (L : List redditListing) :
    redditFindPost L = .error errPostNotFound ↔
      ∀ l ∈ L, ∀ c ∈ l.Data.Children, c.Kind ≠ "t3".toList := by
  induction L with
  | nil => simp [redditFindPost]
  | cons l L ih =>
    cases hf : findInChildren l.Data.Children with
    | none =>
      have hn := (findInChildren_eq_none l.Data.Children).mp hf
      simp only [redditFindPost, hf, ih, List.mem_cons, forall_eq_or_imp]
      exact ⟨fun h => ⟨hn, h⟩, fun h => h.2⟩
    | some d =>
      obtain ⟨pre, c, post, hcs, -, hc, -⟩ := findInChildren_eq_some _ d hf
      simp only [redditFindPost, hf, List.mem_cons, forall_eq_or_imp]
      constructor
      · intro h
        cases h
      · intro h
        exact absurd hc (h.1 c (by simp [hcs]))

/-- When some child has kind `t3`, the search returns the data of the first
one in listing order, then child order. -/
theorem redditFindPost_eq_ok (L : List redditListing)
    (h : ∃ l ∈ L, ∃ c ∈ l.Data.Children, c.Kind = "t3".toList) :
    ∃ L1 l L2 pre c post, L = L1 ++ l :: L2 ∧ l.Data.Children = pre ++ c :: post ∧
      (∀ l1 ∈ L1, ∀ x ∈ l1.Data.Children, x.Kind ≠ "t3".toList) ∧
      (∀ x ∈ pre, x.Kind ≠ "t3".toList) ∧ c.Kind = "t3".toList ∧
      redditFindPost L = .ok c.Data := by
  induction L with
  | nil => simp at h
  | cons l L ih =>
    cases hf : findInChildren l.Data.Children with
    | some d =>
      obtain ⟨pre, c, post, hcs, hpre, hc, hd⟩ := findInChildren_eq_some _ d hf
      exact ⟨[], l, L, pre, c, post, rfl, hcs, by simp, hpre, hc, by simp [redditFindPost, hf, hd]⟩
    | none =>
      have hn := (findInChildren_eq_none l.Data.Children).mp hf
      have h2 : ∃ l1 ∈ L, ∃ c ∈ l1.Data.Children, c.Kind = "t3".toList := by
        obtain ⟨l1, hl1, c, hc, hk⟩ := h
        rcases List.mem_cons.mp hl1 with e | e
        · subst e
          exact absurd hk (hn c hc)
        · exact ⟨l1, e, c, hc, hk⟩
      obtain ⟨L1, l2, L2, pre, c, post, hL, hcs, hL1, hpre, hc, hres⟩ := ih h2
      refine ⟨l :: L1, l2, L2, pre, c, post, by simp [hL], hcs, ?_, hpre, hc, ?_⟩
      · intro l1 hl1
        rcases List.mem_cons.mp hl1 with e | e
        · exact e ▸ hn
        · exact hL1 l1 e
      · simpa [redditFindPost, hf] using hres

/-- C6: `redditFindPost` returns the data of the first child of kind `t3`
(every child before it, in earlier listings or earlier in its listing, has
another kind), and it fails with "post not found" exactly when no child of
any listing has kind `t3`: so for no listings and for listings without
children.  Of two posts behind a comment the first is returned. -/
theorem redditFindPost_first_t3 (L : List redditListing) :
    ((∃ l ∈ L, ∃ c ∈ l.Data.Children, c.Kind = "t3".toList) →
      ∃ L1 l L2 pre c post, L = L1 ++ l :: L2 ∧ l.Data.Children = pre ++ c :: post ∧
        (∀ l1 ∈ L1, ∀ x ∈ l1.Data.Children, x.Kind ≠ "t3".toList) ∧
        (∀ x ∈ pre, x.Kind ≠ "t3".toList) ∧ c.Kind = "t3".toList ∧
        redditFindPost L = .ok c.Data) ∧
    (redditFindPost L = .error errPostNotFound ↔
      ∀ l ∈ L, ∀ c ∈ l.Data.Children, c.Kind ≠ "t3".toList) ∧
    redditFindPost [] = .error errPostNotFound ∧
    redditFindPost [mkListing [], mkListing []] = .error errPostNotFound ∧
    redditFindPost [mkListing [mkChild "t1" "comment"],
        mkListing [mkChild "t1" "reply", mkChild "t3" "first", mkChild "t3" "second"]] =
      .ok (mkChild "t3" "first").Data :=
  ⟨redditFindPost_eq_ok L, redditFindPost_eq_error L, rfl, rfl, rfl⟩

/-! ## `html.UnescapeString` writes something for every reference -/

/-- The name loop never moves the index back. -/
theorem html.scanName_ge (s : Str) (i : Nat) : i ≤ html.scanName s i := by
  induction s generalizing i with
  | nil => simp [html.scanName]
  | cons c cs ih =>
    unfold html.scanName
    split_ifs
    · exact Nat.le_trans (Nat.le_succ i) (ih (i + 1))
    · exact Nat.le_succ i
    · exact Nat.le_refl i

/-- A non-empty input has a non-empty prefix of every positive length. -/
theorem take_ne_nil (c : Char) (cs : Str) (i : Nat) (hi : 1 ≤ i) : (c :: cs).take i ≠ [] := by
  cases i with
  | zero => omega
  | succ n => simp

/-- For every reference `unescapeEntity` writes at least one character. -/
theorem html.unescapeEntity_ne_nil (tb : html.EntityTables) (c : Char) (cs : Str) :
    (html.unescapeEntity tb (c :: cs)).1 ≠ [] := by
  have hname : 1 ≤ html.scanName ((c :: cs).drop 1) 1 := html.scanName_ge _ 1
  unfold html.unescapeEntity
  dsimp only
  repeat' split
  all_goals
    first
    | exact take_ne_nil c cs _ (Nat.le_refl 1)
    | exact take_ne_nil c cs _ hname
    | exact List.cons_ne_nil _ _

/-- The loop of `UnescapeString` writes nothing only for the empty input. -/
theorem html.unescapeFuel_eq_nil (tb : html.EntityTables) (fuel : Nat) (s : Str)
    (h : html.unescapeFuel tb (fuel + 1) s = []) : s = [] := by
  cases s with
  | nil => rfl
  | cons c cs =>
    exfalso
    unfold html.unescapeFuel at h
    split_ifs at h
    exact html.unescapeEntity_ne_nil tb c cs (List.append_eq_nil.mp h).1

/-- `UnescapeString` returns the empty string only for the empty string. -/
theorem html.UnescapeString_eq_nil (tb : html.EntityTables) (s : Str) :
    html.UnescapeString tb s = [] ↔ s = [] := by
  constructor
  · exact html.unescapeFuel_eq_nil tb s.length s
  · intro h
    subst h
    rfl

/-! ## The thumbnail chain: claims C7, C8 and C9 -/

/-- Without a usable preview image the result is decided by the rest of the
chain. -/
theorem redditThumbnail_of_noUsablePreview (tb : html.EntityTables) (post : redditPost)
    (h : noUsablePreview post = true) : redditThumbnail tb post = thumbnailAfterPreview post := by
  cases hp : post.Preview with
  | none => simp [redditThumbnail, firstPreviewImage, hp]
  | some preview =>
    cases hi : preview.Images with
    | nil => simp [redditThumbnail, firstPreviewImage, hp, hi]
    | cons image rest =>
      have ht : strings.TrimSpace image.Source.URL = [] := by
        simpa [noUsablePreview, hp, hi] using h
      simp [redditThumbnail, firstPreviewImage, hp, hi, ht]

/-- C7: when the preview has a first image whose source URL is non-empty after
trimming and unescaping, `redditThumbnail` returns exactly that trimmed and
unescaped URL, whatever the other fields hold; when it is empty after
unescaping, the rung is not used and the rest of the chain decides. -/
theorem redditThumbnail_preview (tb : html.EntityTables) (post : redditPost)
    (preview : redditPreview) (image : redditImage) (rest : List redditImage)
    (hp : post.Preview = some preview) (hi : preview.Images = image :: rest) :
    (html.UnescapeString tb (strings.TrimSpace image.Source.URL) ≠ [] →
      redditThumbnail tb post = html.UnescapeString tb (strings.TrimSpace image.Source.URL)) ∧
    (html.UnescapeString tb (strings.TrimSpace image.Source.URL) = [] →
      redditThumbnail tb post = thumbnailAfterPreview post) := by
  have hf : firstPreviewImage post = some image := by
    simp [firstPreviewImage, hp, hi]
  unfold redditThumbnail
  rw [hf]
  dsimp only
  by_cases ht : strings.TrimSpace image.Source.URL = []
  · rw [ht, if_neg (fun h => h rfl)]
    exact ⟨fun h => absurd ((html.UnescapeString_eq_nil tb []).mpr rfl) h, fun _ => rfl⟩
  · rw [if_pos ht]
    exact ⟨fun _ => rfl, fun h => absurd ((html.UnescapeString_eq_nil tb _).mp h) ht⟩

/-- C7 at the post of the test: `&amp;` in the preview URL is unescaped, and
the preview wins over the destination URL and the thumbnail field. -/
theorem redditThumbnail_preview_witness :
    html.UnescapeString sampleEntities (strings.TrimSpace
      "https://preview.redd.it/example.png?width=640&amp;auto=webp".toList) ≠ [] ∧
    redditThumbnail sampleEntities samplePost =
      "https://preview.redd.it/example.png?width=640&auto=webp".toList :=
  ⟨by decide,
   ((redditThumbnail_preview sampleEntities samplePost _ _ _ rfl rfl).1 (by decide)).trans
     (by decide)⟩

/-- C8: without a usable preview image and with an empty destination URL,
`redditThumbnail` returns the thumbnail field when that starts with `http://`
or `https://` and the empty string otherwise; the sentinels `self` and
`default` give the empty string. -/
theorem redditThumbnail_thumbnail_field (tb : html.EntityTables) (post : redditPost)
    (hprev : noUsablePreview post = true) (hov : post.URLOverriddenByDest = []) :
    redditThumbnail tb post =
      (if strings.HasPrefix post.Thumbnail "http://".toList = true ∨
          strings.HasPrefix post.Thumbnail "https://".toList = true then post.Thumbnail
       else []) ∧
    (post.Thumbnail = "self".toList ∨ post.Thumbnail = "default".toList →
      redditThumbnail tb post = []) := by
  have hres : redditThumbnail tb post =
      (if strings.HasPrefix post.Thumbnail "http://".toList = true ∨
          strings.HasPrefix post.Thumbnail "https://".toList = true then post.Thumbnail
       else []) := by
    rw [redditThumbnail_of_noUsablePreview tb post hprev]
    unfold thumbnailAfterPreview
    rw [if_neg (fun h => h.1 hov)]
  refine ⟨hres, ?_⟩
  intro hs
  rw [hres]
  rcases hs with hs | hs <;> rw [hs] <;> rfl

/-- C8 at a self post: the sentinel `self` is not surfaced. -/
theorem redditThumbnail_thumbnail_field_witness :
    noUsablePreview (mkPost "self" "" "") = true ∧
    (mkPost "self" "" "").URLOverriddenByDest = [] ∧
    redditThumbnail sampleEntities (mkPost "self" "" "") = [] ∧
    redditThumbnail sampleEntities (mkPost "http://b.thumbs.redditmedia.com/t.jpg" "" "") =
      "http://b.thumbs.redditmedia.com/t.jpg".toList :=
  ⟨rfl, rfl,
   (redditThumbnail_thumbnail_field sampleEntities (mkPost "self" "" "") rfl rfl).2 (Or.inl rfl),
   by decide⟩

/-- C9 as stated fails: a destination URL whose host is `i.redd.it` but whose
scheme is `http` is not returned (here the result is empty), because the code
tests the prefix `https://i.redd.it/` of the text and not the host. -/
theorem redditThumbnail_override_http_host :
    noUsablePreview (mkPost "self" "http://i.redd.it/a.png" "link") = true ∧
    (mkPost "self" "http://i.redd.it/a.png" "link").URLOverriddenByDest ≠ [] ∧
    (mkURL "http" "i.redd.it" "/a.png" "" "" "").Hostname = "i.redd.it".toList ∧
    (mkURL "http" "i.redd.it" "/a.png" "" "" "").String =
      (mkPost "self" "http://i.redd.it/a.png" "link").URLOverriddenByDest ∧
    redditThumbnail sampleEntities (mkPost "self" "http://i.redd.it/a.png" "link") ≠
      (mkPost "self" "http://i.redd.it/a.png" "link").URLOverriddenByDest := by
  decide

/-- C9, amended: without a usable preview image, a non-empty destination URL
is returned when the hint is `image` or the URL text starts with
`https://i.redd.it/`; in every other case the destination URL is passed over
and the thumbnail field decides. -/
theorem redditThumbnail_override (tb : html.EntityTables) (post : redditPost)
    (hprev : noUsablePreview post = true) :
    (post.URLOverriddenByDest ≠ [] ∧
        (post.PostHint = "image".toList ∨
          strings.HasPrefix post.URLOverriddenByDest "https://i.redd.it/".toList = true) →
      redditThumbnail tb post = post.URLOverriddenByDest) ∧
    (¬ (post.URLOverriddenByDest ≠ [] ∧
        (post.PostHint = "image".toList ∨
          strings.HasPrefix post.URLOverriddenByDest "https://i.redd.it/".toList = true)) →
      redditThumbnail tb post =
        (if strings.HasPrefix post.Thumbnail "http://".toList = true ∨
            strings.HasPrefix post.Thumbnail "https://".toList = true then post.Thumbnail
         else [])) := by
  rw [redditThumbnail_of_noUsablePreview tb post hprev]
  unfold thumbnailAfterPreview
  constructor
  · intro h
    rw [if_pos h]
  · intro h
    rw [if_neg h]

/-- C9, amended, at three posts: an image-hinted destination, a destination on
`https://i.redd.it/`, and a link whose destination is passed over. -/
theorem redditThumbnail_override_witness :
    noUsablePreview (mkPost "self" "https://example.com/a.png" "image") = true ∧
    redditThumbnail sampleEntities (mkPost "self" "https://example.com/a.png" "image") =
      "https://example.com/a.png".toList ∧
    redditThumbnail sampleEntities (mkPost "self" "https://i.redd.it/a.png" "") =
      "https://i.redd.it/a.png".toList ∧
    redditThumbnail sampleEntities
        (mkPost "https://b.thumbs.redditmedia.com/t.jpg" "https://example.com/page" "link") =
      "https://b.thumbs.redditmedia.com/t.jpg".toList :=
  ⟨rfl,
   (redditThumbnail_override sampleEntities (mkPost "self" "https://example.com/a.png" "image")
      rfl).1 ⟨by decide, Or.inl rfl⟩,
   by decide, by decide⟩

/-! ## The player: claim C10 -/

/-- C10: `redditPlayer` takes `Url`, `Width` and `Height` from the video of
`secure_media` when there is one, otherwise from the video of `media` when
there is one, and is the zero value otherwise; with two videos of different
fallback URLs the one of `secure_media` is used. -/
theorem redditPlayer_chain (post : redditPost) :
    redditPlayer post =
      (match post.SecureMedia.bind (fun m => m.RedditVideo) with
       | some v => { Url := v.FallbackURL, Width := v.Width, Height := v.Height }
       | none =>
         match post.Media.bind (fun m => m.RedditVideo) with
         | some v => { Url := v.FallbackURL, Width := v.Width, Height := v.Height }
         | none => { Url := [], Width := 0, Height := 0 }) ∧
    (∀ sv mv : redditVideo, post.SecureMedia = some { RedditVideo := some sv } →
      post.Media = some { RedditVideo := some mv } → (redditPlayer post).Url = sv.FallbackURL) ∧
    (redditPlayer (mkVideoPost
        (some { FallbackURL := "https://v.redd.it/s/DASH_720.mp4".toList, Width := 1280,
                Height := 720 })
        (some { FallbackURL := "https://v.redd.it/m/DASH_480.mp4".toList, Width := 854,
                Height := 480 }))) =
      { Url := "https://v.redd.it/s/DASH_720.mp4".toList, Width := 1280, Height := 720 } := by
  refine ⟨?_, ?_, by decide⟩
  · unfold redditPlayer pickRedditVideo
    rcases hs : post.SecureMedia with _ | ⟨_ | sv⟩ <;>
      rcases hm : post.Media with _ | ⟨_ | mv⟩ <;> rfl
  · intro sv mv hs hm
    unfold redditPlayer pickRedditVideo
    rw [hs]

/-! ## The fuel of the two loops is enough -/

/-- Greedy repetition in front of a shrinking continuation shrinks. -/
theorem regexp.starGreedy_shrinks (p : Char → Bool) (k : Str → regexp.Slot → Option (Str × Str))
    (hk : regexp.Shrinks k) : regexp.Shrinks (regexp.starGreedy p k) := by
  intro i
  induction i with
  | nil =>
    intro sl r h
    rw [regexp.starGreedy] at h
    exact hk _ _ _ h
  | cons c cs ih =>
    intro sl r h
    rw [regexp.starGreedy] at h
    split_ifs at h
    · split at h
      · rename_i r1 h1
        cases h
        exact Nat.le_trans (ih _ _ h1) (Nat.le_succ _)
      · exact hk _ _ _ h
    · exact hk _ _ _ h

/-- Non-greedy repetition in front of a shrinking continuation shrinks. -/
theorem regexp.starLazy_shrinks (p : Char → Bool) (k : Str → regexp.Slot → Option (Str × Str))
    (hk : regexp.Shrinks k) : regexp.Shrinks (regexp.starLazy p k) := by
  intro i
  induction i with
  | nil =>
    intro sl r h
    rw [regexp.starLazy] at h
    exact hk _ _ _ h
  | cons c cs ih =>
    intro sl r h
    rw [regexp.starLazy] at h
    split at h
    · rename_i r1 h1
      cases h
      exact hk _ _ _ h1
    · split_ifs at h
      exact Nat.le_trans (ih _ _ h) (Nat.le_succ _)

/-- A match leaves a rest that is no longer than the input. -/
theorem regexp.run_shrinks (prog : List regexp.Node) : regexp.Shrinks (regexp.run prog) := by
  induction prog with
  | nil =>
    intro i sl r h
    rw [regexp.run] at h
    cases h
    exact Nat.le_refl _
  | cons node prog ih =>
    intro i sl r h
    cases node with
    | char p =>
      cases i with
      | nil => simp [regexp.run] at h
      | cons c cs =>
        simp only [regexp.run] at h
        split_ifs at h
        exact Nat.le_trans (ih _ _ _ h) (Nat.le_succ _)
    | star p =>
      rw [regexp.run] at h
      exact regexp.starGreedy_shrinks p _ ih _ _ _ h
    | plusLazy p =>
      cases i with
      | nil => simp [regexp.run] at h
      | cons c cs =>
        simp only [regexp.run] at h
        split_ifs at h
        exact Nat.le_trans (regexp.starLazy_shrinks p _ ih _ _ _ h) (Nat.le_succ _)
    | capStart =>
      rw [regexp.run] at h
      exact ih _ _ _ h
    | capEnd =>
      rw [regexp.run] at h
      exact ih _ _ _ h

/-- A match of a pattern that starts with a character consumes input. -/
theorem regexp.run_char_consumes (p : Char → Bool) (prog : List regexp.Node) (c : Char)
    (cs : Str) (sl : regexp.Slot) (r : Str × Str)
    (h : regexp.run (.char p :: prog) (c :: cs) sl = some r) : r.2.length ≤ cs.length := by
  simp only [regexp.run] at h
  split_ifs at h
  exact regexp.run_shrinks prog _ _ _ h

/-- For a pattern that starts with a character, all amounts of fuel from the
length of the input on give the same matches: the loop ends by reaching the
end of the input, not by running out of fuel. -/
theorem regexp.findAllFuel_stable (p : Char → Bool) (prog : List regexp.Node) (f1 f2 : Nat)
    (s : Str) (h1 : s.length ≤ f1) (h2 : s.length ≤ f2) :
    regexp.findAllFuel (.char p :: prog) f1 s = regexp.findAllFuel (.char p :: prog) f2 s := by
  induction f1 generalizing f2 s with
  | zero =>
    have hs : s = [] := List.length_eq_zero.mp (Nat.le_zero.mp h1)
    subst hs
    cases f2 <;> rfl
  | succ n ih =>
    cases s with
    | nil => cases f2 <;> rfl
    | cons c cs =>
      cases f2 with
      | zero => simp at h2
      | succ m =>
        have hn : cs.length ≤ n := Nat.le_of_succ_le_succ h1
        have hm : cs.length ≤ m := Nat.le_of_succ_le_succ h2
        rw [regexp.findAllFuel, regexp.findAllFuel]
        cases hr : regexp.run (.char p :: prog) (c :: cs) ⟨false, []⟩ with
        | none => exact ih m cs hn hm
        | some r =>
          have hlen := regexp.run_char_consumes p prog c cs _ r hr
          obtain ⟨cap, rest⟩ := r
          dsimp only
          rw [ih m rest (Nat.le_trans hlen hn) (Nat.le_trans hlen hm)]

/-- `unescapeEntity` reads at least one character. -/
theorem html.unescapeEntity_reads (tb : html.EntityTables) (s : Str) :
    1 ≤ (html.unescapeEntity tb s).2 := by
  have hname : 1 ≤ html.scanName (s.drop 1) 1 := html.scanName_ge _ 1
  unfold html.unescapeEntity
  dsimp only
  repeat' split
  all_goals
    first
    | exact Nat.le_refl 1
    | exact hname
    | exact Nat.succ_le_succ (Nat.zero_le _)
    | (dsimp only; omega)

/-- All amounts of fuel from the length of the input on give the same result
of the loop of `UnescapeString`. -/
theorem html.unescapeFuel_stable (tb : html.EntityTables) (f1 f2 : Nat) (s : Str)
    (h1 : s.length ≤ f1) (h2 : s.length ≤ f2) :
    html.unescapeFuel tb f1 s = html.unescapeFuel tb f2 s := by
  induction f1 generalizing f2 s with
  | zero =>
    have hs : s = [] := List.length_eq_zero.mp (Nat.le_zero.mp h1)
    subst hs
    cases f2 <;> rfl
  | succ n ih =>
    cases s with
    | nil => cases f2 <;> rfl
    | cons c cs =>
      cases f2 with
      | zero => simp at h2
      | succ m =>
        have hn : cs.length ≤ n := Nat.le_of_succ_le_succ h1
        have hm : cs.length ≤ m := Nat.le_of_succ_le_succ h2
        rw [html.unescapeFuel, html.unescapeFuel]
        split_ifs
        · have hr := html.unescapeEntity_reads tb (c :: cs)
          have hd : ((c :: cs).drop (html.unescapeEntity tb (c :: cs)).2).length ≤ cs.length := by
            rw [List.length_drop, List.length_cons]
            omega
          dsimp only
          rw [ih m _ (Nat.le_trans hd hn) (Nat.le_trans hd hm)]
        · rw [ih m cs hn hm]

/-! ## The player is filled from the descriptor as it is: claim C11 -/

/-- C11 as stated fails: a video descriptor without fallback URL still gives
its width and height to the Player, so `Url` is empty while `Width` and
`Height` are not zero. -/
theorem redditPlayer_dimensions_without_url :
    (redditPlayer (mkVideoPost (some { FallbackURL := [], Width := 640, Height := 480 })
      none)).Url = [] ∧
    ¬ ((redditPlayer (mkVideoPost (some { FallbackURL := [], Width := 640, Height := 480 })
        none)).Width = 0 ∧
      (redditPlayer (mkVideoPost (some { FallbackURL := [], Width := 640, Height := 480 })
        none)).Height = 0) := by
  decide

/-- C11, amended: the Player is the zero value when no video descriptor is
found and a copy of the descriptor's three fields otherwise; so for a post
whose descriptor, if there is one, has a non-empty fallback URL, an empty
`Url` means that nothing was found and `Width` and `Height` are zero. -/
theorem redditPlayer_empty_url (post : redditPost)
    (hurl : ∀ v, pickRedditVideo post = some v → v.FallbackURL ≠ [])
    (hempty : (redditPlayer post).Url = []) :
    pickRedditVideo post = none ∧ (redditPlayer post).Width = 0 ∧
      (redditPlayer post).Height = 0 := by
  unfold redditPlayer at hempty ⊢
  cases hv : pickRedditVideo post with
  | none => exact ⟨rfl, rfl, rfl⟩
  | some v =>
    rw [hv] at hempty
    exact absurd hempty (hurl v hv)

/-- C11, amended, at a post without media and at a post with a complete
descriptor. -/
theorem redditPlayer_empty_url_witness :
    (redditPlayer (mkPost "" "" "")).Url = [] ∧
    (redditPlayer (mkPost "" "" "")).Width = 0 ∧
    (redditPlayer (mkPost "" "" "")).Height = 0 ∧
    redditPlayer (mkVideoPost none
        (some { FallbackURL := "https://v.redd.it/m/DASH_480.mp4".toList, Width := 854,
                Height := 480 })) =
      { Url := "https://v.redd.it/m/DASH_480.mp4".toList, Width := 854, Height := 480 } :=
  ⟨rfl,
   (redditPlayer_empty_url (mkPost "" "" "") (fun _ h => Option.noConfusion h) rfl).2.1,
   (redditPlayer_empty_url (mkPost "" "" "") (fun _ h => Option.noConfusion h) rfl).2.2,
   by decide⟩

/-! ## The sanitizer on the example of the spec: claim C15 -/

/-- C15: for the input `allow="autoplay; camera; picture-in-picture"` the
filter returns `autoplay` and `picture-in-picture`, in this order, and drops
`camera`. -/
theorem filterSafeIframePermissions_example :
    getRequiredPermissionsFromIframe "allow=\"autoplay; camera; picture-in-picture\"".toList =
      ["autoplay".toList, "camera".toList, "picture-in-picture".toList] ∧
    filterSafeIframePermissions "allow=\"autoplay; camera; picture-in-picture\"".toList =
      ["autoplay".toList, "picture-in-picture".toList] := by
  decide

/-! ## Icon and site name: claims C18 and C19 -/

/-- C18: the icon is `scheme://host/favicon.ico` with the scheme of the URL or
`https` when that is empty and the host of the URL or `www.reddit.com` when
that is empty; so the icon of every summary is non-empty and ends with
`/favicon.ico`. -/
theorem redditIconURL_eq (u : url.URL) :
    redditIconURL u =
      (if u.Scheme = [] then "https".toList else u.Scheme) ++ "://".toList ++
        (if u.Host = [] then "www.reddit.com".toList else u.Host) ++ "/favicon.ico".toList ∧
    redditIconURL u ≠ [] ∧
    strings.HasSuffix (redditIconURL u) "/favicon.ico".toList = true ∧
    (∀ (tb : html.EntityTables) (post : redditPost),
      (redditSummaryFromPost tb u post).Icon = redditIconURL u) ∧
    redditIconURL sampleURL = "https://www.reddit.com/favicon.ico".toList ∧
    redditIconURL (mkURL "" "" "/r/test/comments/abc/" "" "" "") =
      "https://www.reddit.com/favicon.ico".toList := by
  refine ⟨rfl, ?_, ?_, fun _ _ => rfl, by decide, by decide⟩
  · unfold redditIconURL
    intro h
    have h2 := (List.append_eq_nil.mp h).2
    revert h2
    decide
  · unfold redditIconURL strings.HasSuffix
    rw [List.isSuffixOf_iff_suffix]
    exact List.suffix_append _ _

/-- C19: the site name of a summary is the subreddit name of the post when
that is non-empty and `Reddit` otherwise; it is never empty. -/
theorem redditSummaryFromPost_siteName (tb : html.EntityTables) (u : url.URL)
    (post : redditPost) :
    (redditSummaryFromPost tb u post).SiteName =
      (if post.SubredditNamePrefixed = [] then "Reddit".toList
       else post.SubredditNamePrefixed) ∧
    (redditSummaryFromPost tb u post).SiteName ≠ [] ∧
    (redditSummaryFromPost sampleEntities sampleURL samplePost).SiteName = "r/test".toList ∧
    (redditSummaryFromPost sampleEntities sampleURL (mkPost "" "" "")).SiteName =
      "Reddit".toList := by
  refine ⟨rfl, ?_, by decide, by decide⟩
  unfold redditSummaryFromPost
  dsimp only
  by_cases h : post.SubredditNamePrefixed = []
  · rw [if_pos h]
    decide
  · rw [if_neg h]
    exact h

/-! ## What a match of the `allow` pattern looks like -/

/-- The slot after the characters `w` have been consumed. -/
theorem regexp.foldl_push_recording (t w : Str) :
    w.foldl regexp.Slot.push ⟨true, t⟩ = ⟨true, t ++ w⟩ := by
  induction w generalizing t with
  | nil => simp
  | cons c cs ih => simp [regexp.Slot.push, ih]

/-- A slot that is not recording ignores what is consumed. -/
theorem regexp.push_not_recording (t : Str) (c : Char) :
    regexp.Slot.push ⟨false, t⟩ c = ⟨false, t⟩ := rfl

/-- A match through a character node consumes one character of its class. -/
theorem regexp.run_char (p : Char → Bool) (prog : List regexp.Node) (input : Str)
    (sl : regexp.Slot) (r : Str × Str) (h : regexp.run (.char p :: prog) input sl = some r) :
    ∃ c cs, input = c :: cs ∧ p c = true ∧ regexp.run prog cs (sl.push c) = some r := by
  cases input with
  | nil => simp [regexp.run] at h
  | cons c cs =>
    simp only [regexp.run] at h
    split_ifs at h with hp
    exact ⟨c, cs, rfl, hp, h⟩

/-- A match through a greedy repetition, the slot not recording: the input
starts with characters of the class, and the continuation matches behind. -/
theorem regexp.starGreedy_sound (p : Char → Bool) (k : Str → regexp.Slot → Option (Str × Str))
    (input : Str) (t : Str) (r : Str × Str)
    (h : regexp.starGreedy p k input ⟨false, t⟩ = some r) :
    ∃ ws rest, input = ws ++ rest ∧ (∀ c ∈ ws, p c = true) ∧ k rest ⟨false, t⟩ = some r := by
  induction input with
  | nil =>
    rw [regexp.starGreedy] at h
    exact ⟨[], [], rfl, by simp, h⟩
  | cons c cs ih =>
    rw [regexp.starGreedy] at h
    split_ifs at h with hp
    · split at h
      · rename_i r1 h1
        cases h
        rw [regexp.push_not_recording] at h1
        obtain ⟨ws, rest, hcs, hws, hk⟩ := ih h1
        refine ⟨c :: ws, rest, by simp [hcs], ?_, hk⟩
        intro x hx
        rcases List.mem_cons.mp hx with e | e
        · exact e ▸ hp
        · exact hws x e
      · exact ⟨[], c :: cs, rfl, by simp, h⟩
    · exact ⟨[], c :: cs, rfl, by simp, h⟩

/-- A match through a non-greedy repetition, the slot recording: the input
starts with characters of the class, which are recorded, and the continuation
matches behind. -/
theorem regexp.starLazy_sound (p : Char → Bool) (k : Str → regexp.Slot → Option (Str × Str))
    (input : Str) (t : Str) (r : Str × Str)
    (h : regexp.starLazy p k input ⟨true, t⟩ = some r) :
    ∃ w rest, input = w ++ rest ∧ (∀ c ∈ w, p c = true) ∧ k rest ⟨true, t ++ w⟩ = some r := by
  induction input generalizing t with
  | nil =>
    rw [regexp.starLazy] at h
    exact ⟨[], [], rfl, by simp, by simpa using h⟩
  | cons c cs ih =>
    rw [regexp.starLazy] at h
    split at h
    · rename_i r1 h1
      cases h
      exact ⟨[], c :: cs, rfl, by simp, by simpa using h1⟩
    · split_ifs at h with hp
      have h2 : regexp.starLazy p k cs ⟨true, t ++ [c]⟩ = some r := h
      obtain ⟨w, rest, hcs, hw, hk⟩ := ih (t ++ [c]) h2
      refine ⟨c :: w, rest, by simp [hcs], ?_, by simpa using hk⟩
      intro x hx
      rcases List.mem_cons.mp hx with e | e
      · exact e ▸ hp
      · exact hw x e

/-- A match of the `allow` pattern at the start of the input: the input is
`allow`, white space, `=`, white space, a quote character, the captured
value, a quote character, and the rest; the value is non-empty and holds no
quote character. -/
theorem run_allowPattern_sound (input cap rest : Str)
    (h : regexp.run allowPattern input ⟨false, []⟩ = some (cap, rest)) :
    ∃ ws1 ws2 q1 q2,
      input = "allow".toList ++ ws1 ++ ['='] ++ ws2 ++ [q1] ++ cap ++ [q2] ++ rest ∧
      (∀ c ∈ ws1, regexp.perlSpace c = true) ∧ (∀ c ∈ ws2, regexp.perlSpace c = true) ∧
      isQuote q1 = true ∧ isQuote q2 = true ∧ cap ≠ [] ∧ (∀ c ∈ cap, isQuote c = false) := by
  unfold allowPattern at h
  obtain ⟨c1, i1, e1, p1, h⟩ := regexp.run_char _ _ _ _ _ h
  obtain ⟨c2, i2, e2, p2, h⟩ := regexp.run_char _ _ _ _ _ h
  obtain ⟨c3, i3, e3, p3, h⟩ := regexp.run_char _ _ _ _ _ h
  obtain ⟨c4, i4, e4, p4, h⟩ := regexp.run_char _ _ _ _ _ h
  obtain ⟨c5, i5, e5, p5, h⟩ := regexp.run_char _ _ _ _ _ h
  simp only [regexp.push_not_recording, decide_eq_true_eq] at h p1 p2 p3 p4 p5
  rw [regexp.run] at h
  obtain ⟨ws1, i6, e6, hws1, h⟩ := regexp.starGreedy_sound _ _ _ _ _ h
  obtain ⟨c7, i7, e7, p7, h⟩ := regexp.run_char _ _ _ _ _ h
  simp only [regexp.push_not_recording, decide_eq_true_eq] at h p7
  rw [regexp.run] at h
  obtain ⟨ws2, i8, e8, hws2, h⟩ := regexp.starGreedy_sound _ _ _ _ _ h
  obtain ⟨q1, i9, e9, hq1, h⟩ := regexp.run_char _ _ _ _ _ h
  rw [regexp.push_not_recording, regexp.run] at h
  cases i9 with
  | nil => simp [regexp.run] at h
  | cons c cs =>
    simp only [regexp.run] at h
    split_ifs at h with hc
    have h' : regexp.starLazy (fun c => !isQuote c)
        (fun i s => regexp.run [.capEnd, .char isQuote] i s) cs ⟨true, [c]⟩ = some (cap, rest) := h
    obtain ⟨w, i10, e10, hw, h⟩ := regexp.starLazy_sound _ _ _ _ _ h'
    rw [regexp.run] at h
    obtain ⟨q2, i11, e11, hq2, h⟩ := regexp.run_char _ _ _ _ _ h
    rw [regexp.push_not_recording, regexp.run] at h
    have hcap : cap = c :: w := by
      have := congrArg Prod.fst (Option.some.inj h)
      simpa using this.symm
    have hrest : rest = i11 := by
      have := congrArg Prod.snd (Option.some.inj h)
      simpa using this.symm
    refine ⟨ws1, ws2, q1, q2, ?_, hws1, hws2, hq1, hq2, ?_, ?_⟩
    · subst e1 e2 e3 e4 e5 e6 e7 e8 e9 e10 e11 p1 p2 p3 p4 p5 p7 hcap hrest
      simp
    · rw [hcap]
      exact List.cons_ne_nil _ _
    · rw [hcap]
      intro x hx
      rcases List.mem_cons.mp hx with e | e
      · subst e
        simpa using hc
      · simpa using hw x e

/-! ## Inputs without an `allow` attribute: claim C14 -/

/-- Where the pattern matches at no position, no match is found. -/
theorem regexp.findAllFuel_eq_nil (prog : List regexp.Node) (fuel : Nat) (s : Str)
    (h : ∀ pre suf, s = pre ++ suf → regexp.run prog suf ⟨false, []⟩ = none) :
    regexp.findAllFuel prog fuel s = [] := by
  induction fuel generalizing s with
  | zero => rfl
  | succ n ih =>
    cases s with
    | nil => rfl
    | cons c cs =>
      rw [regexp.findAllFuel, h [] (c :: cs) rfl]
      exact ih cs (fun pre suf e => h (c :: pre) suf (by simp [e]))

/-- An `allow` attribute closed by the quote character that opens it holds
that character twice. -/
theorem AllowAttribute.count_same (s : Str) (q : Char) (v : Str)
    (h : AllowAttribute s q q v) : 2 ≤ s.count q := by
  obtain ⟨pre, ws1, ws2, post, hs, -, -, -, -, -⟩ := h
  subst hs
  simp only [List.count_append, List.count_cons_self, List.count_nil]
  omega

/-- C14 as stated fails: in `allow='autoplay"` the value is opened with one
quote character and closed with the other, so there is no attribute closed
by its opening quote; the pattern accepts either quote character at both
ends, and both functions return `autoplay`. -/
theorem getRequiredPermissions_mismatched_quotes :
    (¬ ∃ q v, isQuote q = true ∧ AllowAttribute "allow='autoplay\"".toList q q v) ∧
    getRequiredPermissionsFromIframe "allow='autoplay\"".toList = ["autoplay".toList] ∧
    filterSafeIframePermissions "allow='autoplay\"".toList = ["autoplay".toList] := by
  refine ⟨?_, by decide, by decide⟩
  rintro ⟨q, v, hq, h⟩
  have hc := AllowAttribute.count_same _ q v h
  have hq2 : q = '"' ∨ q = '\'' := by simpa [isQuote] using hq
  rcases hq2 with e | e <;> subst e <;> revert hc <;> decide

/-! ## Shape and order of the extracted tokens: claim C16 -/

/-- Text in front does not disturb an ordered occurrence. -/
theorem SegmentsIn.prepend (ts : List Str) (a s : Str) (h : SegmentsIn ts s) :
    SegmentsIn ts (a ++ s) := by
  cases ts with
  | nil => trivial
  | cons t ts =>
    obtain ⟨a1, b, hs, hb⟩ := h
    exact ⟨a ++ a1, b, by simp [hs], hb⟩

/-- Ordered occurrences in two texts combine to one in their concatenation. -/
theorem SegmentsIn.append (ts1 ts2 : List Str) (x y : Str) (h1 : SegmentsIn ts1 x)
    (h2 : SegmentsIn ts2 y) : SegmentsIn (ts1 ++ ts2) (x ++ y) := by
  induction ts1 generalizing x with
  | nil => exact SegmentsIn.prepend ts2 x y h2
  | cons t ts ih =>
    obtain ⟨a, b, hs, hb⟩ := h1
    exact ⟨a, b ++ y, by simp [hs], ih b hb⟩

/-- The trimmed text is a piece of the text. -/
theorem strings.TrimSpace_infix (x : Str) : ∃ a b, x = a ++ strings.TrimSpace x ++ b := by
  refine ⟨x.takeWhile unicode.IsSpace,
    ((x.dropWhile unicode.IsSpace).reverse.takeWhile unicode.IsSpace).reverse, ?_⟩
  unfold strings.TrimSpace
  have h1 := List.takeWhile_append_dropWhile unicode.IsSpace x
  have h2 := List.takeWhile_append_dropWhile unicode.IsSpace
    (x.dropWhile unicode.IsSpace).reverse
  have h3 := congrArg List.reverse h2
  rw [List.reverse_append, List.reverse_reverse] at h3
  rw [List.append_assoc, h3, h1]

/-- The characters of the trimmed text are characters of the text. -/
theorem strings.TrimSpace_subset (x : Str) (c : Char) (h : c ∈ strings.TrimSpace x) : c ∈ x := by
  obtain ⟨a, b, hx⟩ := strings.TrimSpace_infix x
  rw [hx]
  simp [h]

/-- The trimmed text does not end with white space. -/
theorem strings.TrimSpace_getLast (x : Str) (c : Char)
    (h : (strings.TrimSpace x).getLast? = some c) : unicode.IsSpace c = false := by
  unfold strings.TrimSpace at h
  rw [List.getLast?_reverse] at h
  have := List.head?_dropWhile_not unicode.IsSpace (x.dropWhile unicode.IsSpace).reverse
  rw [h] at this
  simpa using this

/-- The trimmed text does not start with white space. -/
theorem strings.TrimSpace_head (x : Str) (c : Char)
    (h : (strings.TrimSpace x).head? = some c) : unicode.IsSpace c = false := by
  have h2 := List.takeWhile_append_dropWhile unicode.IsSpace
    (x.dropWhile unicode.IsSpace).reverse
  have h3 := congrArg List.reverse h2
  rw [List.reverse_append, List.reverse_reverse] at h3
  have h4 : (x.dropWhile unicode.IsSpace).head? = some c := by
    rw [← h3]
    have hne : strings.TrimSpace x ≠ [] := by
      intro e
      rw [e] at h
      cases h
    unfold strings.TrimSpace at h hne
    rw [List.head?_append_of_ne_nil _ hne]
    exact h
  have := List.head?_dropWhile_not unicode.IsSpace x
  rw [h4] at this
  simpa using this

/-- The pieces of a split hold no separator, and only characters of the input. -/
theorem strings.splitAux_mem (sep : Char) (s cur piece : Str) (c : Char)
    (hcur : ∀ x ∈ cur, x ≠ sep) (hp : piece ∈ strings.splitAux sep s cur) (hc : c ∈ piece) :
    c ≠ sep ∧ (c ∈ cur ∨ c ∈ s) := by
  induction s generalizing cur with
  | nil =>
    rw [strings.splitAux, List.mem_singleton] at hp
    subst hp
    have hc2 : c ∈ cur := List.mem_reverse.mp hc
    exact ⟨hcur c hc2, Or.inl hc2⟩
  | cons d ds ih =>
    rw [strings.splitAux] at hp
    split_ifs at hp with hd
    · rcases List.mem_cons.mp hp with e | e
      · subst e
        have hc2 : c ∈ cur := List.mem_reverse.mp hc
        exact ⟨hcur c hc2, Or.inl hc2⟩
      · obtain ⟨h1, h2⟩ := ih [] (by simp) e
        rcases h2 with h2 | h2
        · cases h2
        · exact ⟨h1, Or.inr (List.mem_cons_of_mem _ h2)⟩
    · have hcur2 : ∀ x ∈ d :: cur, x ≠ sep := by
        intro x hx
        rcases List.mem_cons.mp hx with e | e
        · exact e ▸ hd
        · exact hcur x e
      obtain ⟨h1, h2⟩ := ih (d :: cur) hcur2 hp
      refine ⟨h1, ?_⟩
      rcases h2 with h2 | h2
      · rcases List.mem_cons.mp h2 with e | e
        · exact Or.inr (e ▸ List.mem_cons_self _ _)
        · exact Or.inl e
      · exact Or.inr (List.mem_cons_of_mem _ h2)

/-- The tokens of one piece occur in the piece. -/
theorem trimmedAttributes_singleton (x : Str) : SegmentsIn (trimmedAttributes [x]) x := by
  unfold trimmedAttributes
  by_cases h : strings.TrimSpace x = []
  · simp [h, SegmentsIn]
  · obtain ⟨a, b, hx⟩ := strings.TrimSpace_infix x
    simp only [List.map_cons, List.map_nil, List.filter_cons, List.filter_nil]
    rw [if_pos (by simpa using h)]
    exact ⟨a, b, hx, trivial⟩

/-- The tokens of a first piece come before those of the other pieces. -/
theorem trimmedAttributes_cons (x : Str) (xs : List Str) :
    trimmedAttributes (x :: xs) = trimmedAttributes [x] ++ trimmedAttributes xs := by
  unfold trimmedAttributes
  rw [← List.filter_append, ← List.map_append]
  rfl

/-- The tokens of an attribute value occur in the value in their order. -/
theorem trimmedAttributes_splitAux (s cur : Str) :
    SegmentsIn (trimmedAttributes (strings.splitAux ';' s cur)) (cur.reverse ++ s) := by
  induction s generalizing cur with
  | nil =>
    rw [strings.splitAux, List.append_nil]
    exact trimmedAttributes_singleton _
  | cons d ds ih =>
    rw [strings.splitAux]
    split_ifs with hd
    · rw [trimmedAttributes_cons]
      apply SegmentsIn.append
      · exact trimmedAttributes_singleton _
      · have := ih []
        rw [List.reverse_nil, List.nil_append] at this
        exact SegmentsIn.prepend _ [d] ds this
    · have := ih (d :: cur)
      rw [List.reverse_cons, List.append_assoc] at this
      exact this

/-- The tokens of all matches occur in the input in their order. -/
theorem findAllFuel_segments (fuel : Nat) (s : Str) :
    SegmentsIn ((regexp.findAllFuel allowPattern fuel s).flatMap
      (fun m => trimmedAttributes (strings.Split m ';'))) s := by
  induction fuel generalizing s with
  | zero => trivial
  | succ n ih =>
    cases s with
    | nil => trivial
    | cons c cs =>
      rw [regexp.findAllFuel]
      cases hr : regexp.run allowPattern (c :: cs) ⟨false, []⟩ with
      | none => exact SegmentsIn.prepend _ [c] cs (ih cs)
      | some r =>
        obtain ⟨cap, rest⟩ := r
        obtain ⟨ws1, ws2, q1, q2, hin, -⟩ := run_allowPattern_sound _ cap rest hr
        dsimp only
        rw [List.flatMap_cons, hin]
        have h1 : SegmentsIn (trimmedAttributes (strings.Split cap ';')) cap := by
          have := trimmedAttributes_splitAux cap []
          rw [List.reverse_nil, List.nil_append] at this
          exact this
        have h2 := SegmentsIn.prepend _ [q2] rest (ih rest)
        have h3 := SegmentsIn.append _ _ _ _ h1 h2
        have h4 := SegmentsIn.prepend _ ("allow".toList ++ ws1 ++ ['='] ++ ws2 ++ [q1]) _ h3
        simpa using h4

/-- Every capture found holds no quote character. -/
theorem findAllFuel_no_quote (fuel : Nat) (s cap : Str) (c : Char)
    (h : cap ∈ regexp.findAllFuel allowPattern fuel s) (hc : c ∈ cap) : isQuote c = false := by
  induction fuel generalizing s with
  | zero => simp [regexp.findAllFuel] at h
  | succ n ih =>
    cases s with
    | nil => simp [regexp.findAllFuel] at h
    | cons d ds =>
      rw [regexp.findAllFuel] at h
      cases hr : regexp.run allowPattern (d :: ds) ⟨false, []⟩ with
      | none =>
        rw [hr] at h
        exact ih ds h
      | some r =>
        obtain ⟨cap1, rest⟩ := r
        rw [hr] at h
        rcases List.mem_cons.mp h with e | e
        · subst e
          obtain ⟨-, -, -, -, -, -, -, -, -, -, hq⟩ := run_allowPattern_sound _ cap rest hr
          exact hq c hc
        · exact ih rest e

/-! ## Sanitizing the rebuilt attribute: claim C20 -/

/-- The non-greedy repetition of the pattern stops at the first quote
character and has recorded what stands before it. -/
theorem starLazy_to_quote (w t rest : Str) (q : Char) (hw : ∀ c ∈ w, isQuote c = false)
    (hq : isQuote q = true) :
    regexp.starLazy (fun c => !isQuote c)
        (fun i s => regexp.run [.capEnd, .char isQuote] i s) (w ++ q :: rest) ⟨true, t⟩ =
      some (t ++ w, rest) := by
  induction w generalizing t with
  | nil =>
    cases rest <;> simp [regexp.starLazy, regexp.run, hq, regexp.Slot.push]
  | cons c cs ih =>
    have hc : isQuote c = false := hw c (List.mem_cons_self _ _)
    have hcs : ∀ x ∈ cs, isQuote x = false := fun x hx => hw x (List.mem_cons_of_mem _ hx)
    have hk : regexp.run [.capEnd, .char isQuote] (c :: (cs ++ q :: rest)) ⟨true, t⟩ = none := by
      simp [regexp.run, hc]
    have := ih (t ++ [c]) hcs
    simp only [List.cons_append, regexp.starLazy, List.append_eq]
    rw [hk]
    simp only [hc, regexp.Slot.push, Bool.not_false, if_true]
    rw [this]
    simp

/-- The pattern matches a minimal attribute and captures its value. -/
theorem run_allowPattern_minimal (c : Char) (w rest : Str)
    (hv : ∀ x ∈ c :: w, isQuote x = false) :
    regexp.run allowPattern ("allow=\"".toList ++ (c :: w) ++ '"' :: rest) ⟨false, []⟩ =
      some (c :: w, rest) := by
  have hc : isQuote c = false := hv c (List.mem_cons_self _ _)
  have hw : ∀ x ∈ w, isQuote x = false := fun x hx => hv x (List.mem_cons_of_mem _ hx)
  have h := starLazy_to_quote w [c] rest '"' hw (by decide)
  have hq : isQuote '"' = true := by decide
  have hs1 : regexp.perlSpace '=' = false := by decide
  have hs2 : regexp.perlSpace '"' = false := by decide
  simp only [allowPattern, String.toList, List.cons_append, List.nil_append, regexp.run,
    regexp.starGreedy, regexp.Slot.push, hs1, hs2, hq, hc]
  simpa using h

/-- At the end of the input no match is found. -/
theorem regexp.findAllFuel_nil (prog : List regexp.Node) (fuel : Nat) :
    regexp.findAllFuel prog fuel [] = [] := by
  cases fuel <;> rfl

/-- A piece without separator is read up to the text behind it. -/
theorem strings.splitAux_append (sep : Char) (t rest cur : Str) (ht : sep ∉ t) :
    strings.splitAux sep (t ++ rest) cur = strings.splitAux sep rest (t.reverse ++ cur) := by
  induction t generalizing cur with
  | nil => rfl
  | cons c cs ih =>
    have hc : c ≠ sep := fun e => ht (e ▸ List.mem_cons_self _ _)
    have hcs : sep ∉ cs := fun h => ht (List.mem_cons_of_mem _ h)
    rw [List.cons_append, strings.splitAux, if_neg hc, ih (c :: cur) hcs]
    simp

/-- What the rebuilt attribute needs of a token: it is non-empty, holds no
`;` and no quote character, and trimming returns it, also behind a space. -/
theorem safePermissions_good (t : Str) (ht : t ∈ safePermissions) :
    t ≠ [] ∧ ';' ∉ t ∧ (∀ c ∈ t, isQuote c = false) ∧ strings.TrimSpace t = t ∧
      strings.TrimSpace (' ' :: t) = t := by
  simp only [safePermissions, List.mem_cons, List.mem_singleton, List.not_mem_nil,
    or_false] at ht
  rcases ht with h | h | h | h | h <;> subst h <;> decide

/-- Splitting the joined tokens and trimming the pieces gives the tokens back. -/
theorem trimmedAttributes_join (t : Str) (ts : List Str) (cur : Str)
    (hcur : cur = [] ∨ cur = [' ']) (h : ∀ x ∈ t :: ts, x ∈ safePermissions) :
    trimmedAttributes (strings.splitAux ';' (strings.Join (t :: ts) "; ".toList) cur) =
      t :: ts := by
  induction ts generalizing t cur with
  | nil =>
    obtain ⟨hne, hsep, -, h1, h2⟩ := safePermissions_good t (h t (List.mem_cons_self _ _))
    have := strings.splitAux_append ';' t [] cur hsep
    rw [List.append_nil] at this
    rw [strings.Join, this, strings.splitAux]
    unfold trimmedAttributes
    rcases hcur with e | e <;> subst e <;> simp [h1, h2, hne]
  | cons t2 ts ih =>
    obtain ⟨hne, hsep, -, h1, h2⟩ := safePermissions_good t (h t (List.mem_cons_self _ _))
    have hrest : ∀ x ∈ t2 :: ts, x ∈ safePermissions :=
      fun x hx => h x (List.mem_cons_of_mem _ hx)
    have hstep : strings.splitAux ';' (strings.Join (t :: t2 :: ts) "; ".toList) cur =
        (cur.reverse ++ t) :: strings.splitAux ';' (strings.Join (t2 :: ts) "; ".toList) [' '] := by
      rw [strings.Join, List.append_assoc, strings.splitAux_append ';' t _ cur hsep]
      simp [strings.splitAux]
    rw [hstep, trimmedAttributes_cons, ih t2 [' '] (Or.inr rfl) hrest]
    unfold trimmedAttributes
    rcases hcur with e | e <;> subst e <;> simp [h1, h2, hne]

/-- The joined tokens hold no quote character. -/
theorem join_no_quote (ts : List Str) (h : ∀ x ∈ ts, x ∈ safePermissions) :
    ∀ c ∈ strings.Join ts "; ".toList, isQuote c = false := by
  induction ts with
  | nil => simp [strings.Join]
  | cons t ts ih =>
    have ht := (safePermissions_good t (h t (List.mem_cons_self _ _))).2.2.1
    have hrest : ∀ x ∈ ts, x ∈ safePermissions := fun x hx => h x (List.mem_cons_of_mem _ hx)
    cases ts with
    | nil => simpa [strings.Join] using ht
    | cons t2 ts2 =>
      intro c hc
      rw [strings.Join, List.mem_append, List.mem_append] at hc
      rcases hc with (hc | hc) | hc
      · exact ht c hc
      · have hc2 : c = ';' ∨ c = ' ' := by simpa using hc
        rcases hc2 with e | e <;> subst e <;> decide
      · exact ih hrest c hc

/-- From the attribute rebuilt from safe tokens exactly these are extracted. -/
theorem getRequiredPermissionsFromIframe_rebuild (r : List Str)
    (h : ∀ x ∈ r, x ∈ safePermissions) : getRequiredPermissionsFromIframe (rebuildAllow r) = r := by
  cases r with
  | nil => decide
  | cons t ts =>
    have hne : strings.Join (t :: ts) "; ".toList ≠ [] := by
      have ht := (safePermissions_good t (h t (List.mem_cons_self _ _))).1
      cases ts with
      | nil => simpa [strings.Join] using ht
      | cons t2 ts2 => simp [strings.Join, ht]
    obtain ⟨c, w, hcw⟩ := List.exists_cons_of_ne_nil hne
    have hq := join_no_quote (t :: ts) h
    rw [hcw] at hq
    have hrun := run_allowPattern_minimal c w [] hq
    have hfind : regexp.FindAllStringSubmatch allowPattern (rebuildAllow (t :: ts)) =
        [strings.Join (t :: ts) "; ".toList] := by
      unfold regexp.FindAllStringSubmatch rebuildAllow
      rw [hcw]
      have hshape : "allow=\"".toList ++ (c :: w) ++ "\"".toList =
          'a' :: ("llow=\"".toList ++ (c :: w) ++ "\"".toList) := rfl
      rw [hshape, regexp.findAllFuel]
      rw [← hshape]
      have hrun2 : regexp.run allowPattern ("allow=\"".toList ++ (c :: w) ++ "\"".toList)
          ⟨false, []⟩ = some (c :: w, []) := hrun
      rw [hrun2]
      dsimp only
      rw [regexp.findAllFuel_nil]
    unfold getRequiredPermissionsFromIframe
    rw [hfind, List.flatMap_cons, List.flatMap_nil, List.append_nil]
    exact trimmedAttributes_join t ts [] (Or.inl rfl) h

/-- C20: sanitizing the attribute `allow="t1; t2; ...; tn"` rebuilt from the
result of the sanitizer returns that result again; for the empty result the
rebuilt attribute is `allow=""` and gives the empty list. -/
theorem filterSafeIframePermissions_rebuild (s : Str) :
    filterSafeIframePermissions (rebuildAllow (filterSafeIframePermissions s)) =
      filterSafeIframePermissions s ∧
    rebuildAllow [] = "allow=\"\"".toList ∧
    filterSafeIframePermissions (rebuildAllow []) = [] ∧
    rebuildAllow (filterSafeIframePermissions
        "<iframe allow='camera; fullscreen;autoplay' allow=\"web-share\">".toList) =
      "allow=\"fullscreen; autoplay; web-share\"".toList := by
  refine ⟨?_, by decide, by decide, by decide⟩
  have hsafe : ∀ x ∈ filterSafeIframePermissions s, x ∈ safePermissions := by
    intro x hx
    unfold filterSafeIframePermissions at hx
    rw [filterLoop_eq] at hx
    simp only [List.nil_append, List.mem_filter, decide_eq_true_eq] at hx
    exact hx.2
  generalize filterSafeIframePermissions s = r at hsafe
  unfold filterSafeIframePermissions
  rw [getRequiredPermissionsFromIframe_rebuild r hsafe, filterLoop_eq, List.nil_append]
  rw [List.filter_eq_self]
  intro x hx
  exact decide_eq_true (hsafe x hx)

/-! ## Summaries from a decoded document: claims C12 and C13 -/

/-- The inner loop returns the data of a `t3` child that no other precedes. -/
theorem findInChildren_first (pre post : List redditChild) (c : redditChild)
    (hpre : ∀ x ∈ pre, x.Kind ≠ "t3".toList) (hc : c.Kind = "t3".toList) :
    findInChildren (pre ++ c :: post) = some c.Data := by
  induction pre with
  | nil => rw [List.nil_append, findInChildren, if_pos hc]
  | cons x xs ih =>
    rw [List.cons_append, findInChildren, if_neg (hpre x (List.mem_cons_self _ _))]
    exact ih (fun y hy => hpre y (List.mem_cons_of_mem _ hy))

/-- The search returns the data of a `t3` child that no other precedes, in
earlier listings or earlier in its listing. -/
theorem redditFindPost_first (L1 L2 : List redditListing) (l : redditListing)
    (pre post : List redditChild) (c : redditChild)
    (hl : l.Data.Children = pre ++ c :: post)
    (hL1 : ∀ l1 ∈ L1, ∀ x ∈ l1.Data.Children, x.Kind ≠ "t3".toList)
    (hpre : ∀ x ∈ pre, x.Kind ≠ "t3".toList) (hc : c.Kind = "t3".toList) :
    redditFindPost (L1 ++ l :: L2) = .ok c.Data := by
  induction L1 with
  | nil =>
    rw [List.nil_append, redditFindPost, hl, findInChildren_first pre post c hpre hc]
  | cons x xs ih =>
    have hx : findInChildren x.Data.Children = none :=
      (findInChildren_eq_none _).mpr (hL1 x (List.mem_cons_self _ _))
    rw [List.cons_append, redditFindPost, hx]
    exact ih (fun y hy => hL1 y (List.mem_cons_of_mem _ hy))

set_option maxRecDepth 200000 in
/-- The decoder of the model reads the sample document as the sample listing. -/
theorem decodeListings_sample : json.decodeListings redditJSONSample = some sampleListings := by
  decide

/-- C12: for a document that decodes to listings whose first `t3` child is
`c`, `summarizeRedditFromJSON` (that is `summarizeRedditFromListings` on the
decoded listings) returns a summary and no error, with title, description
and maturity flag of the post of `c`, its subreddit name as site name when
that is non-empty, and `redditThumbnail` of the post as thumbnail. -/
theorem summarizeRedditFromJSON_first_post (tb : html.EntityTables)
    (unmarshal : Str → Except GoError (List redditListing)) (u : url.URL) (body : Str)
    (L L1 L2 : List redditListing) (l : redditListing) (pre post : List redditChild)
    (c : redditChild) (hdec : unmarshal body = .ok L) (hL : L = L1 ++ l :: L2)
    (hl : l.Data.Children = pre ++ c :: post)
    (hL1 : ∀ l1 ∈ L1, ∀ x ∈ l1.Data.Children, x.Kind ≠ "t3".toList)
    (hpre : ∀ x ∈ pre, x.Kind ≠ "t3".toList) (hc : c.Kind = "t3".toList) :
    ∃ s, summarizeRedditFromJSON tb unmarshal u body = (some s, none) ∧
      summarizeRedditFromListings tb u L = (some s, none) ∧
      s.Title = c.Data.Title ∧ s.Description = c.Data.Selftext ∧
      s.Sensitive = c.Data.Over18 ∧
      (c.Data.SubredditNamePrefixed ≠ [] → s.SiteName = c.Data.SubredditNamePrefixed) ∧
      s.Thumbnail = redditThumbnail tb c.Data := by
  have hfind : redditFindPost L = .ok c.Data := by
    rw [hL]
    exact redditFindPost_first L1 L2 l pre post c hl hL1 hpre hc
  have hlist : summarizeRedditFromListings tb u L =
      (some (redditSummaryFromPost tb u c.Data), none) := by
    unfold summarizeRedditFromListings
    rw [hfind]
  refine ⟨redditSummaryFromPost tb u c.Data, ?_, hlist, rfl, rfl, rfl, ?_, rfl⟩
  · unfold summarizeRedditFromJSON
    rw [hdec]
    exact hlist
  · intro hne
    unfold redditSummaryFromPost
    dsimp only
    rw [if_neg hne]

/-- C12 at the test: the sample document with the URL of the test gives the
title, description, site name, thumbnail and maturity flag that
`TestSummarizeRedditFromJSON` expects. -/
theorem summarizeRedditFromJSON_first_post_witness :
    json.Unmarshal sampleJSONError redditJSONSample = .ok sampleListings ∧
    ∃ s, summarizeRedditFromJSON sampleEntities (json.Unmarshal sampleJSONError) sampleURL
        redditJSONSample = (some s, none) ∧
      s.Title = "Example title".toList ∧ s.Description = "Example body".toList ∧
      s.SiteName = "r/test".toList ∧
      s.Thumbnail = "https://preview.redd.it/example.png?width=640&auto=webp".toList ∧
      s.Sensitive = true := by
  have hdec : json.Unmarshal sampleJSONError redditJSONSample = .ok sampleListings := by
    unfold json.Unmarshal
    rw [decodeListings_sample]
  refine ⟨hdec, ?_⟩
  obtain ⟨s, hs, -, ht, hd, hsens, hname, hthumb⟩ :=
    summarizeRedditFromJSON_first_post sampleEntities (json.Unmarshal sampleJSONError) sampleURL
      redditJSONSample sampleListings [] [] (mkListing [⟨"t3".toList, samplePost⟩]) [] []
      ⟨"t3".toList, samplePost⟩ hdec rfl rfl (by simp) (by simp) rfl
  exact ⟨s, hs, ht, hd, hname (by decide), hthumb.trans (by decide), hsens⟩

/-- The message of a decode failure is not the message "post not found". -/
theorem decode_error_ne_not_found (e : GoError) :
    fmt.Errorf "failed to decode reddit json: ".toList e ≠ errPostNotFound ∧
    (fmt.Errorf "failed to decode reddit json: ".toList e).Error ≠ errPostNotFound.Error := by
  constructor
  · intro h
    cases h
  · intro h
    have h0 := congrArg List.head? h
    revert h0
    simp [fmt.Errorf, GoError.Error, errPostNotFound]

/-- C13: `summarizeRedditFromJSON` returns a summary and no error, or no
summary and an error; the error for a document that does not decode is the
decoder's error wrapped with the text "failed to decode reddit json: ", the
error for a decoded document without `t3` child is "reddit json: post not
found", and the two differ, as values and in their messages. -/
theorem summarizeRedditFromJSON_errors (tb : html.EntityTables)
    (unmarshal : Str → Except GoError (List redditListing)) (u : url.URL) :
    (∀ body, (∃ s, summarizeRedditFromJSON tb unmarshal u body = (some s, none)) ∨
      (∃ e, summarizeRedditFromJSON tb unmarshal u body = (none, some e))) ∧
    (∀ b1 b2 e1 L, unmarshal b1 = .error e1 → unmarshal b2 = .ok L →
      (∀ l ∈ L, ∀ c ∈ l.Data.Children, c.Kind ≠ "t3".toList) →
      ∃ d n, summarizeRedditFromJSON tb unmarshal u b1 = (none, some d) ∧
        summarizeRedditFromJSON tb unmarshal u b2 = (none, some n) ∧
        d = fmt.Errorf "failed to decode reddit json: ".toList e1 ∧ n = errPostNotFound ∧
        d ≠ n ∧ d.Error ≠ n.Error) ∧
    summarizeRedditFromJSON sampleEntities (json.Unmarshal sampleJSONError) sampleURL
        "<html>not json</html>".toList =
      (none, some (.wrapError
        "failed to decode reddit json: unexpected end of JSON input".toList
        (.errorString "unexpected end of JSON input".toList))) ∧
    summarizeRedditFromJSON sampleEntities (json.Unmarshal sampleJSONError) sampleURL
        "[\x7b\"kind\": \"Listing\", \"data\": \x7b\"children\": []\x7d\x7d]".toList =
      (none, some (.errorString "reddit json: post not found".toList)) := by
  refine ⟨?_, ?_, by decide, by decide⟩
  · intro body
    unfold summarizeRedditFromJSON summarizeRedditFromListings
    cases unmarshal body with
    | error e => exact Or.inr ⟨_, rfl⟩
    | ok L =>
      dsimp only
      cases redditFindPost L with
      | error e => exact Or.inr ⟨_, rfl⟩
      | ok p => exact Or.inl ⟨_, rfl⟩
  · intro b1 b2 e1 L h1 h2 hno
    have hfind : redditFindPost L = .error errPostNotFound :=
      (redditFindPost_eq_error L).mpr hno
    refine ⟨_, _, ?_, ?_, rfl, rfl, (decode_error_ne_not_found e1).1,
      (decode_error_ne_not_found e1).2⟩
    · unfold summarizeRedditFromJSON
      rw [h1]
    · unfold summarizeRedditFromJSON summarizeRedditFromListings
      rw [h2]
      dsimp only
      rw [hfind]

/-! ## Unescaping an escaped path gives the path back -/

/-- The bytes of a character are below 256. -/
theorem utf8.EncodeRune_lt (c : Char) : ∀ b ∈ utf8.EncodeRune c, b < 256 := by
  have hv : c.toNat < 0x110000 := by
    have h := c.valid
    unfold UInt32.isValidChar Nat.isValidChar at h
    unfold Char.toNat
    omega
  intro b hb
  unfold utf8.EncodeRune at hb
  dsimp only at hb
  split_ifs at hb <;> simp at hb <;> omega

/-- The bytes of a string are below 256. -/
theorem utf8.bytes_lt (s : Str) : ∀ b ∈ utf8.bytes s, b < 256 := by
  intro b hb
  unfold utf8.bytes at hb
  rw [List.mem_flatMap] at hb
  obtain ⟨c, -, hc⟩ := hb
  exact utf8.EncodeRune_lt c b hc

/-- The two digits of `%XX` are hexadecimal digits with their values. -/
theorem url.upperhex_facts :
    ∀ n < 16, url.ishex (url.upperhex n) = true ∧ url.unhex (url.upperhex n) = n := by
  decide

set_option maxRecDepth 100000 in
/-- A byte that the path encoding leaves alone is an ASCII character other
than `%`, and is its own UTF-8 encoding. -/
theorem url.plain_byte_facts :
    ∀ b < 256, url.shouldEscape b url.encoding.encodePath = false →
      Char.ofNat b ≠ '%' ∧ (Char.ofNat b = '+' → b = 43) ∧
      utf8.EncodeRune (Char.ofNat b) = [b] := by
  decide

/-- Unescaping reads one escaped byte back. -/
theorem url.unescape_escape_byte (b : Nat) (hb : b < 256) (rest : Str) :
    url.unescape ((if url.shouldEscape b url.encoding.encodePath = true then
        (if b = 32 ∧ url.encoding.encodePath = url.encoding.encodeQueryComponent then ['+']
         else ['%', url.upperhex (b / 16), url.upperhex (b % 16)])
      else [Char.ofNat b]) ++ rest) url.encoding.encodePath =
      (url.unescape rest url.encoding.encodePath).map (fun t => b :: t) := by
  by_cases hs : url.shouldEscape b url.encoding.encodePath = true
  · have h1 := url.upperhex_facts (b / 16) (by omega)
    have h2 := url.upperhex_facts (b % 16) (by omega)
    have hv : b / 16 * 16 + b % 16 = b := by omega
    rw [if_pos hs, if_neg (by simp)]
    simp only [List.cons_append, List.nil_append, url.unescape]
    simp [h1.1, h1.2, h2.1, h2.2, hv]
  · have hs2 : url.shouldEscape b url.encoding.encodePath = false := by simpa using hs
    obtain ⟨hp, hplus, henc⟩ := url.plain_byte_facts b hb hs2
    rw [if_neg hs, List.cons_append, List.nil_append, url.unescape.eq_def]
    dsimp only
    rw [if_neg hp]
    by_cases hc : Char.ofNat b = '+'
    · rw [if_pos hc, hplus hc]
      simp
    · rw [if_neg hc, if_neg (by simp), henc]
      simp

/-- Unescaping reads escaped bytes back. -/
theorem url.unescape_escape_bytes (bs : List Nat) (hbs : ∀ b ∈ bs, b < 256) (rest : Str) :
    url.unescape (bs.flatMap (fun c =>
        if url.shouldEscape c url.encoding.encodePath = true then
          (if c = 32 ∧ url.encoding.encodePath = url.encoding.encodeQueryComponent then ['+']
           else ['%', url.upperhex (c / 16), url.upperhex (c % 16)])
        else [Char.ofNat c]) ++ rest) url.encoding.encodePath =
      (url.unescape rest url.encoding.encodePath).map (fun t => bs ++ t) := by
  induction bs with
  | nil => simp
  | cons b bs ih =>
    rw [List.flatMap_cons, List.append_assoc,
      url.unescape_escape_byte b (hbs b (List.mem_cons_self _ _)),
      ih (fun x hx => hbs x (List.mem_cons_of_mem _ hx))]
    simp [Option.map_map, Function.comp_def]

/-- Unescaping the escaped form of a path gives the bytes of the path. -/
theorem url.unescape_escape (p : Str) :
    url.unescape (url.escape p url.encoding.encodePath) url.encoding.encodePath =
      some (utf8.bytes p) := by
  have h := url.unescape_escape_bytes (utf8.bytes p) (utf8.bytes_lt p) []
  rw [List.append_nil] at h
  unfold url.escape
  rw [h]
  simp [url.unescape]

/-- The escaped path of a URL unescapes to the bytes of its path. -/
theorem url.unescape_EscapedPath (u : url.URL) (hstar : u.Path ≠ "*".toList) :
    url.unescape u.EscapedPath url.encoding.encodePath = some (utf8.bytes u.Path) := by
  unfold url.URL.EscapedPath
  split_ifs with h1
  · exact h1.2.2
  · exact url.unescape_escape u.Path

/-- A slash in front of an escaped path is one more byte. -/
theorem url.unescape_slash (p : Str) :
    url.unescape ('/' :: p) url.encoding.encodePath =
      (url.unescape p url.encoding.encodePath).map (fun t => 47 :: t) := by
  have h := url.unescape_escape_byte 47 (by decide) p
  have h2 : (if url.shouldEscape 47 url.encoding.encodePath = true then
        (if 47 = 32 ∧ url.encoding.encodePath = url.encoding.encodeQueryComponent then ['+']
         else ['%', url.upperhex (47 / 16), url.upperhex (47 % 16)])
      else [Char.ofNat 47]) = ['/'] := by decide
  rw [h2] at h
  exact h

/-! ## The summary keeps the URL of the caller: claim C17 -/

/-- Serialization of a URL with host and without opaque part, for any path
put in its place: the same text before and behind the escaped path, which
gets a slash in front when it does not start with one. -/
theorem url.String_around_path (u : url.URL) (path : Str) (hhost : u.Host ≠ [])
    (hop : u.Opaque = []) :
    ∃ pre post,
      u.String = pre ++
        (if u.EscapedPath ≠ [] ∧ u.EscapedPath.head? ≠ some '/' then ['/'] else []) ++
        u.EscapedPath ++ post ∧
      url.URL.String { u with Path := path } = pre ++
        (if url.URL.EscapedPath { u with Path := path } ≠ [] ∧
            (url.URL.EscapedPath { u with Path := path }).head? ≠ some '/' then ['/']
         else []) ++
        url.URL.EscapedPath { u with Path := path } ++ post := by
  obtain ⟨scheme, opq, user, host, path0, rawPath, omitHost, force, query, frag, rawFrag⟩ := u
  dsimp only at hhost hop ⊢
  subst hop
  have hauth : url.URL.authority ⟨scheme, [], user, host, path, rawPath, omitHost, force, query,
      frag, rawFrag⟩ = url.URL.authority ⟨scheme, [], user, host, path0, rawPath, omitHost, force,
      query, frag, rawFrag⟩ := by
    simp [url.URL.authority, hhost]
  have hauthne : url.URL.authority ⟨scheme, [], user, host, path0, rawPath, omitHost, force,
      query, frag, rawFrag⟩ ≠ [] := by
    simp [url.URL.authority, hhost]
  have hfrag : url.URL.EscapedFragment ⟨scheme, [], user, host, path, rawPath, omitHost, force,
      query, frag, rawFrag⟩ = url.URL.EscapedFragment ⟨scheme, [], user, host, path0, rawPath,
      omitHost, force, query, frag, rawFrag⟩ := rfl
  refine ⟨(if scheme ≠ [] then scheme ++ ":".toList else []) ++
      url.URL.authority ⟨scheme, [], user, host, path0, rawPath, omitHost, force, query, frag,
        rawFrag⟩,
    (if force = true ∨ query ≠ [] then "?".toList ++ query else []) ++
      (if frag ≠ [] then "#".toList ++ url.URL.EscapedFragment ⟨scheme, [], user, host, path0,
        rawPath, omitHost, force, query, frag, rawFrag⟩ else []), ?_, ?_⟩
  · unfold url.URL.String url.URL.hierPart
    dsimp only
    generalize url.URL.authority ⟨scheme, [], user, host, path0, rawPath, omitHost, force, query,
      frag, rawFrag⟩ = A at hauthne ⊢
    generalize url.URL.EscapedPath ⟨scheme, [], user, host, path0, rawPath, omitHost, force,
      query, frag, rawFrag⟩ = E
    by_cases hs : scheme = [] <;> by_cases hE : E = [] <;>
      by_cases hh : E.head? = some '/' <;> simp [hs, hE, hh, hhost, hauthne]
  · unfold url.URL.String url.URL.hierPart
    dsimp only
    rw [hauth, hfrag]
    generalize url.URL.authority ⟨scheme, [], user, host, path0, rawPath, omitHost, force, query,
      frag, rawFrag⟩ = A at hauthne ⊢
    generalize url.URL.EscapedPath ⟨scheme, [], user, host, path, rawPath, omitHost, force,
      query, frag, rawFrag⟩ = E
    by_cases hs : scheme = [] <;> by_cases hE : E = [] <;>
      by_cases hh : E.head? = some '/' <;> simp [hs, hE, hh, hhost, hauthne]

/-- The number of bytes of an escaped path with the slash that serialization
may put in front. -/
theorem url.unescape_length_slashed (E : Str) (bs : List Nat)
    (h : url.unescape E url.encoding.encodePath = some bs) :
    ∃ k, k ≤ 1 ∧ (url.unescape ((if E ≠ [] ∧ E.head? ≠ some '/' then ['/'] else []) ++ E)
      url.encoding.encodePath).map List.length = some (k + bs.length) := by
  split_ifs
  · refine ⟨1, Nat.le_refl 1, ?_⟩
    rw [List.singleton_append, url.unescape_slash, h]
    simp
    omega
  · refine ⟨0, Nat.zero_le 1, ?_⟩
    rw [List.nil_append, h]
    simp

/-- The endpoint of an accepted URL whose path does not end with `.json` is
the serialization of the URL with the suffix appended to the path. -/
theorem buildRedditJSONURL_fst (tbl : Char → Char) (u : url.URL)
    (hok : (buildRedditJSONURL tbl u).2 = true)
    (hjson : strings.HasSuffix u.Path ".json".toList = false) :
    ∃ suffix, (suffix = ".json".toList ∨ suffix = "/.json".toList) ∧
      (buildRedditJSONURL tbl u).1 = url.URL.String { u with Path := u.Path ++ suffix } := by
  rw [buildRedditJSONURL_snd, Bool.and_eq_true] at hok
  obtain ⟨hh, hc⟩ := hok
  by_cases hs : strings.HasSuffix u.Path "/".toList = true
  · refine ⟨_, Or.inl rfl, ?_⟩
    simp only [buildRedditJSONURL]
    rw [hh, hc, hjson, if_pos hs]
    rfl
  · refine ⟨_, Or.inr rfl, ?_⟩
    simp only [buildRedditJSONURL]
    rw [hh, hc, hjson, if_neg hs]
    rfl

/-- For an accepted URL without opaque part whose path does not end with
`.json`, the endpoint is not the serialization of the URL. -/
theorem buildRedditJSONURL_ne_String (tbl : Char → Char) (u : url.URL) (hop : u.Opaque = [])
    (hok : (buildRedditJSONURL tbl u).2 = true)
    (hjson : strings.HasSuffix u.Path ".json".toList = false) :
    (buildRedditJSONURL tbl u).1 ≠ u.String := by
  obtain ⟨suffix, hsuf, hres⟩ := buildRedditJSONURL_fst tbl u hok hjson
  rw [buildRedditJSONURL_snd, Bool.and_eq_true] at hok
  obtain ⟨hh, hc⟩ := hok
  have hhost : u.Host ≠ [] := by
    intro h
    have h0 := isRedditHost_nil tbl
    unfold url.URL.Hostname at hh
    rw [h, h0] at hh
    cases hh
  have hstar : u.Path ≠ "*".toList := by
    intro h
    rw [h] at hc
    revert hc
    decide
  have hlen : 5 ≤ (utf8.bytes suffix).length := by
    rcases hsuf with e | e <;> subst e <;> decide
  have hstar2 : u.Path ++ suffix ≠ "*".toList := by
    intro h
    have hl := congrArg List.length h
    have h5 : 5 ≤ suffix.length := by
      rcases hsuf with e | e <;> subst e <;> decide
    rw [List.length_append] at hl
    have h1 : "*".toList.length = 1 := rfl
    omega
  obtain ⟨pre, post, h1, h2⟩ := url.String_around_path u (u.Path ++ suffix) hhost hop
  have hE := url.unescape_EscapedPath u hstar
  have hE2 := url.unescape_EscapedPath { u with Path := u.Path ++ suffix } hstar2
  obtain ⟨k, hk, hku⟩ := url.unescape_length_slashed _ _ hE
  obtain ⟨k2, hk2, hku2⟩ := url.unescape_length_slashed _ _ hE2
  intro heq
  rw [hres, h1, h2] at heq
  simp only [List.append_assoc] at heq
  have heq1 := List.append_cancel_left heq
  rw [← List.append_assoc, ← List.append_assoc] at heq1
  have heq2 := List.append_cancel_right heq1
  rw [heq2, hku] at hku2
  have hb : utf8.bytes (u.Path ++ suffix) = utf8.bytes u.Path ++ utf8.bytes suffix := by
    simp [utf8.bytes]
  have hnum := Option.some.inj hku2
  change k + (utf8.bytes u.Path).length = k2 + (utf8.bytes (u.Path ++ suffix)).length at hnum
  rw [hb, List.length_append] at hnum
  omega

/-- C17: the `Url` of a summary is the serialization of the URL that the
caller passed, for `redditSummaryFromPost` and so for every summary returned
by `summarizeRedditFromListings`, `summarizeRedditFromJSON` and
`summarizeReddit`; it is not the JSON endpoint, which differs from it for
every accepted URL whose path does not end with `.json` (for URL values
without opaque part, as `url.Parse` returns them with a host). -/
theorem summary_url_is_caller_url (tbl : Char → Char) (tb : html.EntityTables) (u : url.URL) :
    (∀ post, (redditSummaryFromPost tb u post).Url = u.String) ∧
    (∀ L s e, summarizeRedditFromListings tb u L = (some s, e) → s.Url = u.String) ∧
    (∀ unmarshal body s e, summarizeRedditFromJSON tb unmarshal u body = (some s, e) →
      s.Url = u.String) ∧
    (∀ env s e, summarizeReddit tbl tb env u = .returned (some s, e) → s.Url = u.String) ∧
    (u.Opaque = [] → (buildRedditJSONURL tbl u).2 = true →
      strings.HasSuffix u.Path ".json".toList = false →
      ∀ post, (redditSummaryFromPost tb u post).Url ≠ (buildRedditJSONURL tbl u).1) ∧
    (redditSummaryFromPost sampleEntities sampleURL samplePost).Url =
      "https://www.reddit.com/r/test/comments/abc/example/".toList ∧
    (buildRedditJSONURL noCaseTable sampleURL).1 =
      "https://www.reddit.com/r/test/comments/abc/example/.json".toList := by
  have hL : ∀ L s e, summarizeRedditFromListings tb u L = (some s, e) → s.Url = u.String := by
    intro L s e h
    unfold summarizeRedditFromListings at h
    cases hf : redditFindPost L with
    | error err =>
      rw [hf] at h
      cases h
    | ok post =>
      rw [hf] at h
      cases h
      rfl
  refine ⟨fun _ => rfl, hL, ?_, ?_, ?_, by decide, by decide⟩
  · intro unmarshal body s e h
    unfold summarizeRedditFromJSON at h
    cases hu : unmarshal body with
    | error err =>
      rw [hu] at h
      cases h
    | ok L =>
      rw [hu] at h
      exact hL L s e h
  · intro env s e h
    unfold summarizeReddit at h
    dsimp only at h
    by_cases h0 : (buildRedditJSONURL tbl u).2 = false
    · rw [if_pos h0] at h
      cases h
    · rw [if_neg h0] at h
      cases hreq : env.NewRequest (buildRedditJSONURL tbl u).1 with
      | some err =>
        rw [hreq] at h
        cases h
      | none =>
        rw [hreq] at h
        dsimp only at h
        cases hsend : env.Send (buildRedditJSONURL tbl u).1 with
        | error err =>
          rw [hsend] at h
          cases h
        | ok resp =>
          rw [hsend] at h
          dsimp only at h
          by_cases hst : resp.StatusCode ≠ 200
          · rw [if_pos hst] at h
            cases h
          · rw [if_neg hst] at h
            cases hcl : resp.closeErr with
            | some err =>
              rw [hcl] at h
              cases h
            | none =>
              rw [hcl] at h
              have h2 := Outcome.returned.inj h
              cases hd : env.Decode resp.Body with
              | error err =>
                rw [hd] at h2
                cases h2
              | ok L =>
                rw [hd] at h2
                exact hL L s e h2
  · intro hop hok hjson post h
    exact buildRedditJSONURL_ne_String tbl u hop hok hjson h.symm

/-! ## The pattern finds exactly the attributes: claims C14 and C16 -/

/-- The greedy repetition over a run of characters of its class that ends
before a character outside the class goes on behind the run. -/
theorem regexp.starGreedy_complete (p : Char → Bool)
    (k : Str → regexp.Slot → Option (Str × Str)) (ws rest t : Str) (r : Str × Str)
    (hws : ∀ c ∈ ws, p c = true) (hrest : ∀ c, rest.head? = some c → p c = false)
    (hk : k rest ⟨false, t⟩ = some r) :
    regexp.starGreedy p k (ws ++ rest) ⟨false, t⟩ = some r := by
  induction ws with
  | nil =>
    cases rest with
    | nil => simpa [regexp.starGreedy] using hk
    | cons c cs =>
      have hc : p c = false := hrest c rfl
      simpa [regexp.starGreedy, hc] using hk
  | cons c cs ih =>
    have hc : p c = true := hws c (List.mem_cons_self _ _)
    have h := ih (fun x hx => hws x (List.mem_cons_of_mem _ hx))
    simp only [List.cons_append, regexp.starGreedy, hc, if_true, regexp.push_not_recording,
      List.append_eq]
    rw [h]

/-- A quote character is no white space of the class `\s`. -/
theorem perlSpace_of_isQuote (q : Char) (h : isQuote q = true) : regexp.perlSpace q = false := by
  have hq : q = '"' ∨ q = '\'' := by simpa [isQuote] using h
  rcases hq with e | e <;> subst e <;> decide

/-- The pattern matches at the start of every text that starts with an
attribute, captures its value and stops behind its closing quote. -/
theorem run_allowPattern_complete (t v rest : Str) (h : AttributeAt t v rest) :
    regexp.run allowPattern t ⟨false, []⟩ = some (v, rest) := by
  obtain ⟨ws1, ws2, q1, q2, ht, hws1, hws2, hq1, hq2, hv, hvq⟩ := h
  subst ht
  cases v with
  | nil => exact absurd rfl hv
  | cons c w =>
    have hc : isQuote c = false := hvq c (List.mem_cons_self _ _)
    have hw : ∀ x ∈ w, isQuote x = false := fun x hx => hvq x (List.mem_cons_of_mem _ hx)
    have h4 := starLazy_to_quote w [c] rest q2 hw hq2
    have h3 : regexp.run [.char isQuote, .capStart, .plusLazy (fun c => !isQuote c), .capEnd,
        .char isQuote] (q1 :: ((c :: w) ++ q2 :: rest)) ⟨false, []⟩ = some (c :: w, rest) := by
      simp only [regexp.run, hq1, if_true, List.cons_append, hc, Bool.not_false,
        regexp.Slot.push, Bool.false_eq_true, if_false, List.nil_append]
      simpa using h4
    have h2 := regexp.starGreedy_complete regexp.perlSpace
      (fun i s => regexp.run [.char isQuote, .capStart, .plusLazy (fun c => !isQuote c), .capEnd,
        .char isQuote] i s) ws2 (q1 :: ((c :: w) ++ q2 :: rest)) [] (c :: w, rest) hws2
      (by
        intro x hx
        cases hx
        exact perlSpace_of_isQuote _ hq1) h3
    have h1 : regexp.run [.char (· = '='), .star regexp.perlSpace, .char isQuote, .capStart,
        .plusLazy (fun c => !isQuote c), .capEnd, .char isQuote]
        ('=' :: (ws2 ++ q1 :: ((c :: w) ++ q2 :: rest))) ⟨false, []⟩ = some (c :: w, rest) := by
      simp only [regexp.run, decide_True, if_true, regexp.push_not_recording]
      exact h2
    have h0 := regexp.starGreedy_complete regexp.perlSpace
      (fun i s => regexp.run [.char (· = '='), .star regexp.perlSpace, .char isQuote, .capStart,
        .plusLazy (fun c => !isQuote c), .capEnd, .char isQuote] i s) ws1
      ('=' :: (ws2 ++ q1 :: ((c :: w) ++ q2 :: rest))) [] (c :: w, rest) hws1
      (by
        intro x hx
        cases hx
        decide) h1
    have e : "allow".toList ++ ws1 ++ ['='] ++ ws2 ++ [q1] ++ (c :: w) ++ [q2] ++ rest =
        'a' :: 'l' :: 'l' :: 'o' :: 'w' :: (ws1 ++ '=' :: (ws2 ++ q1 :: ((c :: w) ++ q2 :: rest))) := by
      simp
    rw [e]
    simp only [allowPattern, regexp.run, decide_True, if_true, regexp.push_not_recording]
    exact h0

/-- The pattern matches at the start of a text exactly when the text starts
with an attribute; the capture is its value. -/
theorem run_allowPattern_iff (t v rest : Str) :
    regexp.run allowPattern t ⟨false, []⟩ = some (v, rest) ↔ AttributeAt t v rest :=
  ⟨fun h => run_allowPattern_sound t v rest h, run_allowPattern_complete t v rest⟩

/-- No attribute starts in the empty text. -/
theorem AttributeAt.ne_nil (t v rest : Str) (h : AttributeAt t v rest) : t ≠ [] := by
  obtain ⟨ws1, ws2, q1, q2, ht, -⟩ := h
  subst ht
  simp

/-- What follows an attribute is shorter than the text that starts with it. -/
theorem AttributeAt.length_lt (t v rest : Str) (h : AttributeAt t v rest) :
    rest.length < t.length := by
  obtain ⟨ws1, ws2, q1, q2, ht, -⟩ := h
  subst ht
  simp
  omega

/-- A text starts with at most one attribute. -/
theorem AttributeAt.unique (t v1 rest1 v2 rest2 : Str) (h1 : AttributeAt t v1 rest1)
    (h2 : AttributeAt t v2 rest2) : v1 = v2 ∧ rest1 = rest2 := by
  have e1 := run_allowPattern_complete t v1 rest1 h1
  have e2 := run_allowPattern_complete t v2 rest2 h2
  rw [e1] at e2
  cases e2
  exact ⟨rfl, rfl⟩

/-- One more character in front, at which no attribute starts, leaves the
values as they are. -/
theorem AttributeValues.cons (c : Char) (cs : Str) (vs : List Str)
    (hno : ∀ v rest, ¬ AttributeAt (c :: cs) v rest) (h : AttributeValues cs vs) :
    AttributeValues (c :: cs) vs := by
  cases h with
  | done _ hd =>
    refine AttributeValues.done _ ?_
    intro pre t v rest e
    cases pre with
    | nil =>
      rw [List.nil_append] at e
      subst e
      exact hno v rest
    | cons d ds =>
      rw [List.cons_append] at e
      injection e with _ e2
      exact hd ds t v rest e2
  | step g t v rest vs2 hgap hat hrest =>
    have := AttributeValues.step (c :: g) t v rest vs2 ?_ hat hrest
    · simpa using this
    · intro pre g2 v2 rest2 e hne
      cases pre with
      | nil =>
        rw [List.nil_append] at e
        subst e
        exact hno v2 rest2
      | cons d ds =>
        rw [List.cons_append] at e
        injection e with _ e2
        exact hgap ds g2 v2 rest2 e2 hne

/-- What the pattern finds are the values of the attributes of the text. -/
theorem findAllFuel_attributeValues (fuel : Nat) (s : Str) (hf : s.length ≤ fuel) :
    AttributeValues s (regexp.findAllFuel allowPattern fuel s) := by
  induction fuel generalizing s with
  | zero =>
    have hs : s = [] := List.length_eq_zero.mp (Nat.le_zero.mp hf)
    subst hs
    refine AttributeValues.done _ ?_
    intro pre t v rest e hat
    have ht : t = [] := (List.append_eq_nil.mp e.symm).2
    exact AttributeAt.ne_nil t v rest hat ht
  | succ n ih =>
    cases s with
    | nil =>
      rw [regexp.findAllFuel_nil]
      refine AttributeValues.done _ ?_
      intro pre t v rest e hat
      have ht : t = [] := (List.append_eq_nil.mp e.symm).2
      exact AttributeAt.ne_nil t v rest hat ht
    | cons c cs =>
      rw [regexp.findAllFuel]
      cases hr : regexp.run allowPattern (c :: cs) ⟨false, []⟩ with
      | none =>
        refine AttributeValues.cons c cs _ ?_ (ih cs (by simpa using hf))
        intro v rest hat
        rw [run_allowPattern_complete _ v rest hat] at hr
        cases hr
      | some r =>
        obtain ⟨cap, rest⟩ := r
        have hat : AttributeAt (c :: cs) cap rest := run_allowPattern_sound _ cap rest hr
        have hlt := AttributeAt.length_lt _ _ _ hat
        have hrest : rest.length ≤ n := by
          simp only [List.length_cons] at hlt hf
          omega
        have := AttributeValues.step [] (c :: cs) cap rest _
          (fun pre g2 v2 rest2 e hne => absurd (List.append_eq_nil.mp e.symm).2 hne)
          hat (ih rest hrest)
        simpa using this

/-- A gap in which no attribute starts is passed over by the search. -/
theorem findAllFuel_gap (g t : Str) (fuel : Nat)
    (hgap : ∀ pre g2 v2 rest2, g = pre ++ g2 → g2 ≠ [] → ¬ AttributeAt (g2 ++ t) v2 rest2) :
    regexp.findAllFuel allowPattern (fuel + g.length) (g ++ t) =
      regexp.findAllFuel allowPattern fuel t := by
  induction g with
  | nil => rfl
  | cons c cs ih =>
    have hr : regexp.run allowPattern (c :: (cs ++ t)) ⟨false, []⟩ = none := by
      cases hr : regexp.run allowPattern (c :: (cs ++ t)) ⟨false, []⟩ with
      | none => rfl
      | some r =>
        exfalso
        obtain ⟨cap, rest⟩ := r
        exact hgap [] (c :: cs) cap rest rfl (by simp) (run_allowPattern_sound _ cap rest hr)
    have e : fuel + (c :: cs).length = (fuel + cs.length) + 1 := by simp; omega
    rw [e, List.cons_append, regexp.findAllFuel, hr]
    exact ih (fun pre g2 v2 rest2 e2 hne => hgap (c :: pre) g2 v2 rest2 (by simp [e2]) hne)

/-- The values of the attributes of a text are what the pattern finds. -/
theorem AttributeValues.findAllFuel_eq (s : Str) (vs : List Str) (h : AttributeValues s vs)
    (fuel : Nat) (hf : s.length ≤ fuel) : regexp.findAllFuel allowPattern fuel s = vs := by
  induction h generalizing fuel with
  | done s hd =>
    apply regexp.findAllFuel_eq_nil
    intro pre suf e
    cases hr : regexp.run allowPattern suf ⟨false, []⟩ with
    | none => rfl
    | some r =>
      exfalso
      obtain ⟨cap, rest⟩ := r
      exact hd pre suf cap rest e (run_allowPattern_sound _ cap rest hr)
  | step g t v rest vs hgap hat hrest ih =>
    have hlen : (g ++ t).length = t.length + g.length := by simp; omega
    obtain ⟨m, hm⟩ : ∃ m, fuel = m + g.length := ⟨fuel - g.length, by omega⟩
    subst hm
    rw [findAllFuel_gap g t m hgap]
    have htm : t.length ≤ m := by omega
    cases t with
    | nil => exact absurd rfl (AttributeAt.ne_nil _ _ _ hat)
    | cons c cs =>
      cases m with
      | zero => simp at htm
      | succ k =>
        rw [regexp.findAllFuel, run_allowPattern_complete _ v rest hat]
        have hlt := AttributeAt.length_lt _ _ _ hat
        simp only [List.length_cons] at hlt htm
        dsimp only
        rw [ih k (by omega)]

/-- The search of the pattern returns exactly the values of the attributes
of the text, in their order of appearance. -/
theorem FindAllStringSubmatch_iff (s : Str) (vs : List Str) :
    regexp.FindAllStringSubmatch allowPattern s = vs ↔ AttributeValues s vs := by
  unfold regexp.FindAllStringSubmatch
  constructor
  · intro h
    rw [← h]
    exact findAllFuel_attributeValues _ s (Nat.le_succ _)
  · intro h
    exact AttributeValues.findAllFuel_eq s vs h _ (Nat.le_succ _)

/-! ## The pieces of a value and their tokens: claim C16 -/

/-- A split has at least one piece. -/
theorem strings.splitAux_ne_nil (sep : Char) (s cur : Str) : strings.splitAux sep s cur ≠ [] := by
  induction s generalizing cur with
  | nil => simp [strings.splitAux]
  | cons c cs ih =>
    rw [strings.splitAux]
    split_ifs
    · simp
    · exact ih _

/-- Joining a first piece with at least one more. -/
theorem strings.Join_cons (a : Str) (l : List Str) (sep : Str) (hl : l ≠ []) :
    strings.Join (a :: l) sep = a ++ sep ++ strings.Join l sep := by
  cases l with
  | nil => exact absurd rfl hl
  | cons b rest => rfl

/-- The pieces of a split, joined by the separator, give the text back. -/
theorem strings.Join_splitAux (sep : Char) (s cur : Str) :
    strings.Join (strings.splitAux sep s cur) [sep] = cur.reverse ++ s := by
  induction s generalizing cur with
  | nil => simp [strings.splitAux, strings.Join]
  | cons c cs ih =>
    rw [strings.splitAux]
    split_ifs with hc
    · rw [strings.Join_cons _ _ _ (strings.splitAux_ne_nil sep cs []), ih []]
      simp [hc]
    · rw [ih (c :: cur)]
      simp

/-- Go `strings.Split(v, ";")` returns exactly the pieces of `v` between its
`;` characters, in their order. -/
theorem strings.Split_iff (v : Str) (ps : List Str) :
    strings.Split v ';' = ps ↔ PiecesOf v ps := by
  unfold strings.Split
  constructor
  · intro h
    subst h
    refine ⟨strings.splitAux_ne_nil _ _ _, ?_, ?_⟩
    · intro p hp hc
      exact (strings.splitAux_mem ';' v [] p ';' (by simp) hp hc).1 rfl
    · simpa using strings.Join_splitAux ';' v []
  · intro h
    obtain ⟨hne, hsep, hjoin⟩ := h
    induction ps generalizing v with
    | nil => exact absurd rfl hne
    | cons p rest ih =>
      have hp : ';' ∉ p := hsep p (List.mem_cons_self _ _)
      cases rest with
      | nil =>
        have e : v = p := by simpa [strings.Join] using hjoin.symm
        subst e
        have := strings.splitAux_append ';' v [] [] hp
        rw [List.append_nil] at this
        rw [this]
        simp [strings.splitAux]
      | cons q r =>
        have e : v = p ++ ';' :: strings.Join (q :: r) [';'] := by
          rw [← hjoin, strings.Join_cons _ _ _ (by simp)]
          simp
        subst e
        rw [strings.splitAux_append ';' p _ [] hp, strings.splitAux, if_pos rfl]
        rw [ih (strings.Join (q :: r) [';']) (by simp)
          (fun x hx => hsep x (List.mem_cons_of_mem _ hx)) rfl]
        simp

/-- Leading characters that are all dropped. -/
theorem List.dropWhile_append_of_all (p : Char → Bool) (a l : Str) (ha : ∀ c ∈ a, p c = true) :
    (a ++ l).dropWhile p = l.dropWhile p := by
  induction a with
  | nil => rfl
  | cons c cs ih =>
    rw [List.cons_append, List.dropWhile_cons, if_pos (ha c (List.mem_cons_self _ _))]
    exact ih (fun x hx => ha x (List.mem_cons_of_mem _ hx))

/-- Nothing is dropped from a text that starts outside the class. -/
theorem List.dropWhile_of_head (p : Char → Bool) (l : Str)
    (h : ∀ c, l.head? = some c → p c = false) : l.dropWhile p = l := by
  cases l with
  | nil => rfl
  | cons c cs => rw [List.dropWhile_cons, if_neg (by simp [h c rfl])]

/-- A text of white space only is dropped as a whole. -/
theorem List.dropWhile_all (p : Char → Bool) (a : Str) (ha : ∀ c ∈ a, p c = true) :
    a.dropWhile p = [] := by
  have := List.dropWhile_append_of_all p a [] ha
  simpa using this

/-- Go `strings.TrimSpace(p)` returns exactly the text of `p` between its
leading and its trailing white space. -/
theorem strings.TrimSpace_iff (p t : Str) : strings.TrimSpace p = t ↔ TrimmedOf p t := by
  constructor
  · intro h
    subst h
    refine ⟨p.takeWhile unicode.IsSpace,
      ((p.dropWhile unicode.IsSpace).reverse.takeWhile unicode.IsSpace).reverse, ?_, ?_, ?_,
      strings.TrimSpace_head p, strings.TrimSpace_getLast p⟩
    · unfold strings.TrimSpace
      have h1 := List.takeWhile_append_dropWhile unicode.IsSpace p
      have h2 := List.takeWhile_append_dropWhile unicode.IsSpace
        (p.dropWhile unicode.IsSpace).reverse
      have h3 := congrArg List.reverse h2
      rw [List.reverse_append, List.reverse_reverse] at h3
      rw [List.append_assoc, h3, h1]
    · intro c hc
      exact List.mem_takeWhile_imp hc
    · intro c hc
      exact List.mem_takeWhile_imp (List.mem_reverse.mp hc)
  · intro h
    obtain ⟨a, b, hp, ha, hb, hhead, hlast⟩ := h
    subst hp
    unfold strings.TrimSpace
    rw [List.append_assoc, List.dropWhile_append_of_all _ a _ ha]
    cases t with
    | nil =>
      rw [List.nil_append, List.dropWhile_all _ b hb]
      rfl
    | cons c cs =>
      rw [List.dropWhile_of_head _ ((c :: cs) ++ b) (by
        intro x hx
        exact hhead x (by simpa using hx))]
      rw [List.reverse_append, List.dropWhile_append_of_all _ b.reverse _
        (fun x hx => hb x (List.mem_reverse.mp hx))]
      rw [List.dropWhile_of_head _ (c :: cs).reverse (by
        intro x hx
        exact hlast x (by rw [← List.getLast?_reverse, List.reverse_reverse] at hx; exact hx))]
      exact List.reverse_reverse _

/-! ## Inputs without an `allow` attribute: the amended claim C14 -/

/-- An `allow` attribute whose value holds no quote character is an
attribute that starts at some position of the text. -/
theorem AllowAttribute.attributeAt (s : Str) (q1 q2 : Char) (v : Str)
    (h : AllowAttribute s q1 q2 v) (hv : ∀ c ∈ v, isQuote c = false) :
    ∃ pre t rest, s = pre ++ t ∧ AttributeAt t v rest := by
  obtain ⟨pre, ws1, ws2, post, hs, hws1, hws2, hq1, hq2, hne⟩ := h
  exact ⟨pre, "allow".toList ++ ws1 ++ ['='] ++ ws2 ++ [q1] ++ v ++ [q2] ++ post, post,
    by simp [hs], ws1, ws2, q1, q2, rfl, hws1, hws2, hq1, hq2, hne, hv⟩

/-- A text at none of whose positions the pattern matches holds no `allow`
attribute with a non-empty value without quote characters. -/
theorem no_attribute_of_tails (s : Str)
    (h : s.tails.all (fun suf => (regexp.run allowPattern suf ⟨false, []⟩).isNone) = true) :
    ¬ ∃ q1 q2 v, AllowAttribute s q1 q2 v ∧ ∀ c ∈ v, isQuote c = false := by
  rintro ⟨q1, q2, v, ha, hv⟩
  obtain ⟨pre, t, rest, hs, hat⟩ := AllowAttribute.attributeAt s q1 q2 v ha hv
  have hmem : t ∈ s.tails := (List.mem_tails t s).mpr ⟨pre, hs.symm⟩
  have := List.all_eq_true.mp h t hmem
  rw [run_allowPattern_complete t v rest hat] at this
  cases this

/-- C14, amended: when the input holds no `allow` attribute whose value,
non-empty and without a quote character, stands between two quote characters
(the same or not), both functions return the empty list. -/
theorem getRequiredPermissions_nil_of_no_attribute (s : Str)
    (h : ¬ ∃ q1 q2 v, AllowAttribute s q1 q2 v ∧ ∀ c ∈ v, isQuote c = false) :
    getRequiredPermissionsFromIframe s = [] ∧ filterSafeIframePermissions s = [] := by
  have hnil : regexp.FindAllStringSubmatch allowPattern s = [] := by
    apply regexp.findAllFuel_eq_nil
    intro pre suf hs
    cases hr : regexp.run allowPattern suf ⟨false, []⟩ with
    | none => rfl
    | some r =>
      exfalso
      obtain ⟨cap, rest⟩ := r
      obtain ⟨ws1, ws2, q1, q2, hsuf, hws1, hws2, hq1, hq2, hcap, hquote⟩ :=
        run_allowPattern_sound suf cap rest hr
      exact h ⟨q1, q2, cap, ⟨pre, ws1, ws2, rest, by simp [hs, hsuf], hws1, hws2, hq1, hq2, hcap⟩,
        hquote⟩
  have hreq : getRequiredPermissionsFromIframe s = [] := by
    unfold getRequiredPermissionsFromIframe
    rw [hnil]
    rfl
  refine ⟨hreq, ?_⟩
  unfold filterSafeIframePermissions
  rw [hreq]
  rfl

set_option maxRecDepth 200000 in
/-- C14, amended, at the malformed inputs of the claim: no `allow` at all, an
empty value, an empty value with a quoted attribute behind it, an unquoted
value and an unterminated value. At each of them no attribute with a value
without quote characters is found, and both functions return the empty
list; for the third input the condition of the claim is spelled out. -/
theorem getRequiredPermissions_nil_of_no_attribute_witness :
    (getRequiredPermissionsFromIframe "<iframe src=x allowfullscreen></iframe>".toList = [] ∧
      filterSafeIframePermissions "<iframe src=x allowfullscreen></iframe>".toList = []) ∧
    (getRequiredPermissionsFromIframe "<iframe allow=\"\">".toList = [] ∧
      filterSafeIframePermissions "<iframe allow=\"\">".toList = []) ∧
    ((¬ ∃ q1 q2 v, AllowAttribute "<iframe allow=\"\" src=\"x\">".toList q1 q2 v ∧
        ∀ c ∈ v, isQuote c = false) ∧
      getRequiredPermissionsFromIframe "<iframe allow=\"\" src=\"x\">".toList = [] ∧
      filterSafeIframePermissions "<iframe allow=\"\" src=\"x\">".toList = []) ∧
    (getRequiredPermissionsFromIframe "<iframe allow=autoplay>".toList = [] ∧
      filterSafeIframePermissions "<iframe allow=autoplay>".toList = []) ∧
    (getRequiredPermissionsFromIframe "<iframe allow=\"autoplay>".toList = [] ∧
      filterSafeIframePermissions "<iframe allow=\"autoplay>".toList = []) :=
  ⟨getRequiredPermissions_nil_of_no_attribute _ (no_attribute_of_tails _ (by decide)),
   getRequiredPermissions_nil_of_no_attribute _ (no_attribute_of_tails _ (by decide)),
   ⟨no_attribute_of_tails _ (by decide),
    getRequiredPermissions_nil_of_no_attribute _ (no_attribute_of_tails _ (by decide))⟩,
   getRequiredPermissions_nil_of_no_attribute _ (no_attribute_of_tails _ (by decide)),
   getRequiredPermissions_nil_of_no_attribute _ (no_attribute_of_tails _ (by decide))⟩

/-! ## Shape and order of the extracted tokens: the theorem of claim C16 -/

/-- The pieces of every value, as `strings.Split` returns them. -/
theorem forall₂_piecesOf (vs : List Str) (pss : List (List Str))
    (h : List.Forall₂ PiecesOf vs pss) : pss = vs.map (fun v => strings.Split v ';') := by
  induction h with
  | nil => rfl
  | cons hv _ ih =>
    rw [List.map_cons, ← ih, (strings.Split_iff _ _).mpr hv]

/-- The token of every piece, as `strings.TrimSpace` returns it. -/
theorem forall₂_trimmedOf (ps ts : List Str) (h : List.Forall₂ TrimmedOf ps ts) :
    ts = ps.map strings.TrimSpace := by
  induction h with
  | nil => rfl
  | cons hp _ ih =>
    rw [List.map_cons, ← ih, (strings.TrimSpace_iff _ _).mpr hp]

/-- The loops of `getRequiredPermissionsFromIframe` over the values found:
the non-empty tokens of all pieces, in the order of the pieces. -/
theorem flatMap_trimmedAttributes (vs : List Str) :
    vs.flatMap (fun m => trimmedAttributes (strings.Split m ';')) =
      (((vs.map (fun v => strings.Split v ';')).flatten).map strings.TrimSpace).filter
        (fun t => t ≠ []) := by
  induction vs with
  | nil => rfl
  | cons v rest ih =>
    rw [List.flatMap_cons, ih, List.map_cons, List.flatten_cons, List.map_append,
      List.filter_append]
    rfl

/-- C16: for every input `s`, every token of `getRequiredPermissionsFromIframe`
is non-empty, neither starts nor ends with white space, and holds no `;` and
no quote character; the tokens occur in `s` one after the other in the order
of the list. The result is determined as follows: `s` has a list `vs` of
attribute values in order of appearance, every value has its list of pieces
between the `;` characters, every piece has its token without the white
space around it, and whatever these lists are, the result is the list of the
tokens of all pieces of all values, in that order, less the empty tokens and
nothing else: a token that occurs again is listed again. -/
theorem getRequiredPermissionsFromIframe_tokens (s : Str) :
    (∀ t ∈ getRequiredPermissionsFromIframe s,
      t ≠ [] ∧ (∀ c, t.head? = some c → unicode.IsSpace c = false) ∧
      (∀ c, t.getLast? = some c → unicode.IsSpace c = false) ∧
      ';' ∉ t ∧ '"' ∉ t ∧ '\'' ∉ t) ∧
    SegmentsIn (getRequiredPermissionsFromIframe s) s ∧
    (∃ vs pss ts, AttributeValues s vs ∧ List.Forall₂ PiecesOf vs pss ∧
      List.Forall₂ TrimmedOf pss.flatten ts) ∧
    (∀ vs pss ts, AttributeValues s vs → List.Forall₂ PiecesOf vs pss →
      List.Forall₂ TrimmedOf pss.flatten ts →
      getRequiredPermissionsFromIframe s = ts.filter (fun t => t ≠ [])) ∧
    getRequiredPermissionsFromIframe
        "<iframe allow=' fullscreen ;autoplay;; ' class=\"v\" allow = \"autoplay\">".toList =
      ["fullscreen".toList, "autoplay".toList, "autoplay".toList] ∧
    getRequiredPermissionsFromIframe "<iframe allow=\"b;a\" allow='a;b'>".toList =
      ["b".toList, "a".toList, "a".toList, "b".toList] := by
  refine ⟨?_, findAllFuel_segments _ s, ?_, ?_, by decide, by decide⟩
  · intro t ht
    unfold getRequiredPermissionsFromIframe trimmedAttributes at ht
    rw [List.mem_flatMap] at ht
    obtain ⟨cap, hcap, ht⟩ := ht
    rw [List.mem_filter, List.mem_map] at ht
    obtain ⟨⟨piece, hpiece, hpt⟩, hne⟩ := ht
    have hne2 : t ≠ [] := by simpa using hne
    have hchars : ∀ c ∈ t, c ≠ ';' ∧ isQuote c = false := by
      intro c hc
      have hc2 : c ∈ piece := strings.TrimSpace_subset piece c (hpt ▸ hc)
      obtain ⟨h1, h2⟩ := strings.splitAux_mem ';' cap [] piece c (by simp) hpiece hc2
      rcases h2 with h2 | h2
      · cases h2
      · exact ⟨h1, findAllFuel_no_quote _ s cap c hcap h2⟩
    refine ⟨hne2, ?_, ?_, ?_, ?_, ?_⟩
    · intro c hc
      exact strings.TrimSpace_head piece c (hpt ▸ hc)
    · intro c hc
      exact strings.TrimSpace_getLast piece c (hpt ▸ hc)
    · exact fun h => (hchars _ h).1 rfl
    · intro h
      have := (hchars _ h).2
      revert this
      decide
    · intro h
      have := (hchars _ h).2
      revert this
      decide
  · refine ⟨regexp.FindAllStringSubmatch allowPattern s,
      (regexp.FindAllStringSubmatch allowPattern s).map (fun v => strings.Split v ';'),
      (((regexp.FindAllStringSubmatch allowPattern s).map
        (fun v => strings.Split v ';')).flatten).map strings.TrimSpace,
      (FindAllStringSubmatch_iff s _).mp rfl, ?_, ?_⟩
    · generalize regexp.FindAllStringSubmatch allowPattern s = vs
      induction vs with
      | nil => exact List.Forall₂.nil
      | cons v rest ih => exact List.Forall₂.cons ((strings.Split_iff v _).mp rfl) ih
    · generalize ((regexp.FindAllStringSubmatch allowPattern s).map
        (fun v => strings.Split v ';')).flatten = ps
      induction ps with
      | nil => exact List.Forall₂.nil
      | cons p rest ih => exact List.Forall₂.cons ((strings.TrimSpace_iff p _).mp rfl) ih
  · intro vs pss ts hvs hpss hts
    have e1 := (FindAllStringSubmatch_iff s vs).mpr hvs
    have e2 := forall₂_piecesOf vs pss hpss
    have e3 := forall₂_trimmedOf _ ts hts
    unfold getRequiredPermissionsFromIframe
    rw [e1, e3, e2]
    exact flatMap_trimmedAttributes vs
